import Mathlib

/-!
Verification of the `depfunc` dependency-graph scheduler.

This file shallowly embeds the Go package `depfunc`:
  * `StringSet`, `stringmultimap` (sets.go): string sets and multimaps;
  * `Graph`, `Graph.AddAction`, `Graph.LinkDependency`, `Graph.collectRoots`,
    `Graph.dfsResolve`, `Graph.Resolve` (depfunc.go): graph construction and
    the resolving depth-first traversal;
  * `Statistics` (stats.go): the per-node timing statistics derived from the
    `Enter` / `Start` / `Finish` / `Exit` recorder hooks;
  * a trace model of the per-node goroutine protocol of `Graph.visit`,
    capturing the construction barrier (`dfsWait`), the per-node countdown
    latch (`sync.WaitGroup` sized to the prerequisite count), the completion
    barrier (`wg`) and the cancellation checks (`searchContextDone`).

Go maps are embedded as association lists; map iteration order is fixed to
list order (the Go order is unspecified, and all order-sensitive theorems
below state order-independent properties).  Machine concurrency is embedded
as a validity predicate over event traces, derived from the synchronization
constructs used by the code.
-/

set_option maxHeartbeats 1000000

namespace Depfunc

/-- Go `StringSet` is `map[string]struct{}`; embedded as a duplicate-free
list of strings (all operations preserve freedom from duplicates). -/
abbrev StringSet := List String

/-- Go `StringSet.Contains`: membership test. -/
def StringSet.Contains (ss : StringSet) (s : String) : Prop := s ∈ ss

instance (ss : StringSet) (s : String) : Decidable (ss.Contains s) :=
  inferInstanceAs (Decidable (s ∈ ss))

/-- Go `StringSet.Add`: `ss[s] = struct{}{}` — insert, a no-op when already
present (Go map keys are unique). -/
def StringSet.Add (ss : StringSet) (s : String) : StringSet :=
  if s ∈ ss then ss else s :: ss

/-- Go `StringSet.Remove`: `delete(ss, s)` — remove the (unique) binding. -/
def StringSet.Remove (ss : StringSet) (s : String) : StringSet := ss.erase s

/-- Go `stringmultimap` is `map[string]StringSet`; embedded as an
association list with unique keys. -/
abbrev stringmultimap := List (String × StringSet)

/-- Lookup in a `stringmultimap`: a missing key reads as the empty set,
exactly as a Go map access `m[key]` yields `nil`. -/
def stringmultimap.get (m : stringmultimap) (key : String) : StringSet :=
  match m with
  | [] => []
  | (k, s) :: rest => if k = key then s else stringmultimap.get rest key

/-- Go `stringmultimap.Add`: create the set on first use, then insert. -/
def stringmultimap.Add (m : stringmultimap) (key value : String) : stringmultimap :=
  match m with
  | [] => [(key, StringSet.Add [] value)]
  | (k, s) :: rest =>
    if k = key then (k, s.Add value) :: rest
    else (k, s) :: stringmultimap.Add rest key value

/-! Basic lemmas about `StringSet` and `stringmultimap`. -/

theorem StringSet.mem_Add {ss : StringSet} {s x : String} :
    x ∈ ss.Add s ↔ x = s ∨ x ∈ ss := by
  unfold StringSet.Add
  split <;> simp_all [eq_comm]
  intro h; subst h; assumption

theorem StringSet.nodup_Add {ss : StringSet} {s : String} (h : ss.Nodup) :
    (ss.Add s).Nodup := by
  unfold StringSet.Add
  split <;> simp_all

theorem stringmultimap.get_Add (m : stringmultimap) (key value k : String) :
    (m.Add key value).get k =
      if k = key then (m.get key).Add value else m.get k := by
  induction m with
  | nil =>
    rcases eq_or_ne k key with h | h
    · subst h; simp [stringmultimap.Add, stringmultimap.get]
    · simp [stringmultimap.Add, stringmultimap.get, h, Ne.symm h]
  | cons e rest ih =>
    obtain ⟨k', s⟩ := e
    rcases eq_or_ne k' key with h1 | h1
    · subst h1
      rcases eq_or_ne k k' with h2 | h2
      · subst h2; simp [stringmultimap.Add, stringmultimap.get]
      · simp [stringmultimap.Add, stringmultimap.get, h2, Ne.symm h2]
    · rcases eq_or_ne k' k with hk | hk
      · have hkey : ¬ k = key := fun hc => h1 (by rw [hk, hc])
        simp [stringmultimap.Add, stringmultimap.get, h1, hk, hkey]
      · simp [stringmultimap.Add, stringmultimap.get, h1, hk, ih]

theorem stringmultimap.keys_Add (m : stringmultimap) (key value : String) :
    (m.Add key value).map Prod.fst =
      if key ∈ m.map Prod.fst then m.map Prod.fst else m.map Prod.fst ++ [key] := by
  induction m with
  | nil => simp [stringmultimap.Add]
  | cons e rest ih =>
    obtain ⟨k', s⟩ := e
    simp only [stringmultimap.Add]
    by_cases h1 : k' = key
    · subst h1; simp
    · simp only [if_neg h1, List.map_cons, ih]
      by_cases h2 : key ∈ rest.map Prod.fst
      · simp [h2, Ne.symm h1, fun hc : key = k' => h1 hc.symm]
      · simp [h2, Ne.symm h1, fun hc : key = k' => h1 hc.symm]

theorem stringmultimap.nodup_keys_Add {m : stringmultimap} {key value : String}
    (h : (m.map Prod.fst).Nodup) : ((m.Add key value).map Prod.fst).Nodup := by
  rw [stringmultimap.keys_Add]
  by_cases hk : key ∈ m.map Prod.fst
  · simpa [hk]
  · simp only [if_neg hk]
    exact List.Nodup.append h (List.nodup_singleton key)
      (by simpa [List.disjoint_singleton] using hk)

theorem stringmultimap.vals_Add {m : stringmultimap} {key value : String}
    (h : ∀ e ∈ m, (e.2 : StringSet).Nodup) :
    ∀ e ∈ m.Add key value, (e.2 : StringSet).Nodup := by
  induction m with
  | nil =>
    intro e he
    simp only [stringmultimap.Add, List.mem_singleton] at he
    subst he
    exact StringSet.nodup_Add List.nodup_nil
  | cons e₀ rest ih =>
    obtain ⟨k', s⟩ := e₀
    intro e he
    simp only [stringmultimap.Add] at he
    by_cases h1 : k' = key
    · rw [if_pos h1] at he
      rcases List.mem_cons.mp he with h2 | h2
      · subst h2; exact StringSet.nodup_Add (h (k', s) (List.mem_cons_self _ _))
      · exact h _ (List.mem_cons_of_mem _ h2)
    · rw [if_neg h1] at he
      rcases List.mem_cons.mp he with h2 | h2
      · subst h2; exact h (k', s) (List.mem_cons_self _ _)
      · exact ih (fun e' he' => h _ (List.mem_cons_of_mem _ he')) _ h2

/-- Membership in a looked-up set comes from an actual entry of the list. -/
theorem stringmultimap.mem_get {m : stringmultimap} {k x : String}
    (h : x ∈ m.get k) : ∃ s, (k, s) ∈ m ∧ x ∈ s := by
  induction m with
  | nil => simp [stringmultimap.get] at h
  | cons e rest ih =>
    obtain ⟨k', s⟩ := e
    simp only [stringmultimap.get] at h
    by_cases h1 : k' = k
    · subst h1; exact ⟨s, by simp, by simpa [if_pos rfl] using h⟩
    · rw [if_neg h1] at h
      obtain ⟨s', hs', hx⟩ := ih h
      exact ⟨s', List.mem_cons_of_mem _ hs', hx⟩

/-- With unique keys, an entry is recovered exactly by `get`. -/
theorem stringmultimap.get_of_mem {m : stringmultimap} {k : String} {s : StringSet}
    (hnd : (m.map Prod.fst).Nodup) (h : (k, s) ∈ m) : m.get k = s := by
  induction m with
  | nil => simp at h
  | cons e rest ih =>
    obtain ⟨k', s'⟩ := e
    simp only [List.map_cons, List.nodup_cons] at hnd
    rcases List.mem_cons.mp h with h1 | h1
    · obtain ⟨hk, hs⟩ := Prod.mk.injEq .. ▸ h1
      injection h1 with hk hs
      subst hk; subst hs
      simp [stringmultimap.get]
    · simp only [stringmultimap.get]
      by_cases h2 : k' = k
      · subst h2
        exact absurd (List.mem_map_of_mem Prod.fst h1) hnd.1
      · rw [if_neg h2]; exact ih hnd.2 h1

/-! ## The Graph and its construction API (depfunc.go) -/

/-- Go `Graph`: `treeOrder` maps a node to its prerequisites (the adjacency
list where the dependent-most node is a root), `graphOrder` maps a node to
its dependents, and `actions` is the map of actions by name.  Actions are
opaque to the scheduler, so their type is a parameter. -/
structure Graph (α : Type) where
  treeOrder : stringmultimap
  graphOrder : stringmultimap
  actions : List (String × α)

/-- Go `NewGraph`: all three maps start empty. -/
def NewGraph {α : Type} : Graph α := ⟨[], [], []⟩

/-- Lookup in the `actions` map. -/
def actionsGet? {α : Type} : List (String × α) → String → Option α
  | [], _ => none
  | (k, v) :: rest, name => if k = name then some v else actionsGet? rest name

/-- Store into the `actions` map: `g.actions[name] = action` overwrites an
existing binding and otherwise appends a new one. -/
def actionsSet {α : Type} : List (String × α) → String → α → List (String × α)
  | [], name, a => [(name, a)]
  | (k, v) :: rest, name, a =>
    if k = name then (k, a) :: rest else (k, v) :: actionsSet rest name a

/-- Go `Graph.AddAction`: reject the empty name, otherwise store the action.
The Go method mutates `g` and returns an error; here the error case returns
`Except.error` and the caller keeps the unmodified graph. -/
def Graph.AddAction {α : Type} (g : Graph α) (name : String) (action : α) :
    Except String (Graph α) :=
  if name = "" then .error "name must not be empty"
  else .ok { g with actions := actionsSet g.actions name action }

/-- Go `Graph.LinkDependency`: validate both names (non-empty and already
registered, in the source's check order), then record the edge in both
adjacency maps. -/
def Graph.LinkDependency {α : Type} (g : Graph α) (parent name : String) :
    Except String (Graph α) :=
  if name = "" then .error "name must not be empty"
  else if (actionsGet? g.actions name).isNone then .error "action not added"
  else if parent = "" then .error "parent name must not be empty"
  else if (actionsGet? g.actions parent).isNone then .error "parent action not added"
  else .ok { g with treeOrder := g.treeOrder.Add name parent,
                    graphOrder := g.graphOrder.Add parent name }

/-- The registered node names, in registration order. -/
def Graph.keys {α : Type} (g : Graph α) : List String := g.actions.map Prod.fst

/-- Go `Graph.collectRoots`: the names of all registered actions whose
dependent set is empty (`len(g.graphOrder[name]) == 0`).  The Go function
streams them over a channel in unspecified map order; the embedding fixes
registration order. -/
def Graph.collectRoots {α : Type} (g : Graph α) : List String :=
  g.keys.filter (fun name => (g.graphOrder.get name).isEmpty)

/-- Structural well-formedness of a graph value: unique keys everywhere,
duplicate-free edge sets, the two adjacency maps mutually transposed, and
every edge endpoint registered in `actions`.  `NewGraph` satisfies it and
both construction operations preserve it. -/
def WellFormed {α : Type} (g : Graph α) : Prop :=
  g.keys.Nodup ∧
  (g.treeOrder.map Prod.fst).Nodup ∧
  (g.graphOrder.map Prod.fst).Nodup ∧
  (∀ e ∈ g.treeOrder, (e.2 : StringSet).Nodup) ∧
  (∀ e ∈ g.graphOrder, (e.2 : StringSet).Nodup) ∧
  (∀ e ∈ g.treeOrder, ∀ p ∈ (e.2 : StringSet), e.1 ∈ g.graphOrder.get p) ∧
  (∀ e ∈ g.graphOrder, ∀ c ∈ (e.2 : StringSet), e.1 ∈ g.treeOrder.get c) ∧
  (∀ e ∈ g.treeOrder, e.1 ∈ g.keys ∧ ∀ p ∈ (e.2 : StringSet), p ∈ g.keys) ∧
  (∀ e ∈ g.graphOrder, e.1 ∈ g.keys ∧ ∀ c ∈ (e.2 : StringSet), c ∈ g.keys)

instance {α : Type} (g : Graph α) : Decidable (WellFormed g) := by
  unfold WellFormed; infer_instance

/-- The two adjacency maps are exact transposes of each other: the
membership form of the `WellFormed` transposition clauses. -/
theorem WellFormed.transpose {α : Type} {g : Graph α} (h : WellFormed g)
    (p c : String) : p ∈ g.treeOrder.get c ↔ c ∈ g.graphOrder.get p := by
  obtain ⟨-, -, -, -, -, h6, h7, -, -⟩ := h
  constructor
  · intro hp
    obtain ⟨s, hs, hps⟩ := stringmultimap.mem_get hp
    exact h6 (c, s) hs p hps
  · intro hc
    obtain ⟨s, hs, hcs⟩ := stringmultimap.mem_get hc
    exact h7 (p, s) hs c hcs

/-- Every edge endpoint of a well-formed graph is a registered name. -/
theorem WellFormed.edge_keys {α : Type} {g : Graph α} (h : WellFormed g)
    {c p : String} (hp : p ∈ g.treeOrder.get c) : c ∈ g.keys ∧ p ∈ g.keys := by
  obtain ⟨-, -, -, -, -, -, -, h8, -⟩ := h
  obtain ⟨s, hs, hps⟩ := stringmultimap.mem_get hp
  exact ⟨(h8 (c, s) hs).1, (h8 (c, s) hs).2 p hps⟩

/-- Sets looked up in the adjacency maps of a well-formed graph are
duplicate-free. -/
theorem WellFormed.get_tree_nodup {α : Type} {g : Graph α} (h : WellFormed g)
    (c : String) : (g.treeOrder.get c).Nodup := by
  obtain ⟨-, h2, -, h4, -, -, -, -, -⟩ := h
  by_cases hc : g.treeOrder.get c = []
  · simp [hc]
  · obtain ⟨x, hx⟩ := List.exists_mem_of_ne_nil _ hc
    obtain ⟨s, hs, -⟩ := stringmultimap.mem_get hx
    rw [stringmultimap.get_of_mem h2 hs]
    exact h4 (c, s) hs

/-! ## Preservation of well-formedness by the construction API -/

theorem actionsGet?_isSome_iff {α : Type} (acts : List (String × α)) (x : String) :
    (actionsGet? acts x).isSome ↔ x ∈ acts.map Prod.fst := by
  induction acts with
  | nil => simp [actionsGet?]
  | cons e rest ih =>
    obtain ⟨k, v⟩ := e
    by_cases h : k = x
    · subst h; simp [actionsGet?]
    · have hx : ¬ x = k := fun hc => h hc.symm
      simp [actionsGet?, h, ih, hx]

theorem mem_keys_of_not_isNone {α : Type} {acts : List (String × α)} {x : String}
    (h : ¬ (actionsGet? acts x).isNone = true) : x ∈ acts.map Prod.fst := by
  rw [← actionsGet?_isSome_iff]
  cases hopt : actionsGet? acts x
  · exact absurd (by simp [hopt]) h
  · simp

theorem not_mem_keys_of_isNone {α : Type} {acts : List (String × α)} {x : String}
    (h : (actionsGet? acts x).isNone = true) : x ∉ acts.map Prod.fst := by
  rw [← actionsGet?_isSome_iff]
  cases hopt : actionsGet? acts x
  · simp
  · simp [hopt] at h

theorem keys_actionsSet {α : Type} (acts : List (String × α)) (name : String) (a : α) :
    (actionsSet acts name a).map Prod.fst =
      if name ∈ acts.map Prod.fst then acts.map Prod.fst
      else acts.map Prod.fst ++ [name] := by
  induction acts with
  | nil => simp [actionsSet]
  | cons e rest ih =>
    obtain ⟨k, v⟩ := e
    by_cases h : k = name
    · subst h; simp [actionsSet]
    · have hx : ¬ name = k := fun hc => h hc.symm
      simp only [actionsSet, if_neg h, List.map_cons, ih]
      by_cases h2 : name ∈ rest.map Prod.fst
      · simp [h2, hx]
      · simp [h2, hx]

theorem actionsGet?_actionsSet {α : Type} (acts : List (String × α))
    (name x : String) (a : α) :
    actionsGet? (actionsSet acts name a) x =
      if x = name then some a else actionsGet? acts x := by
  induction acts with
  | nil =>
    rcases eq_or_ne x name with h | h
    · subst h; simp [actionsSet, actionsGet?]
    · simp [actionsSet, actionsGet?, h, Ne.symm h]
  | cons e rest ih =>
    obtain ⟨k, v⟩ := e
    rcases eq_or_ne k name with h1 | h1
    · subst h1
      rcases eq_or_ne x k with h2 | h2
      · subst h2; simp [actionsSet, actionsGet?]
      · simp [actionsSet, actionsGet?, h2, Ne.symm h2]
    · rcases eq_or_ne k x with hk | hk
      · have hx : ¬ x = name := fun hc => h1 (by rw [hk, hc])
        simp [actionsSet, actionsGet?, h1, hk, hx]
      · simp [actionsSet, actionsGet?, h1, hk, ih]

/-- Membership in the prerequisite sets after a successful `LinkDependency`:
exactly the new pair `(dependent = name, prerequisite = parent)` is added. -/
theorem LinkDependency_get_tree {α : Type} {g g' : Graph α} {parent name : String}
    (h : g.LinkDependency parent name = .ok g') (c p : String) :
    (p ∈ g'.treeOrder.get c ↔ (c = name ∧ p = parent) ∨ p ∈ g.treeOrder.get c) := by
  unfold Graph.LinkDependency at h
  split at h
  · exact absurd h (by simp)
  · split at h
    · exact absurd h (by simp)
    · split at h
      · exact absurd h (by simp)
      · split at h
        · exact absurd h (by simp)
        · injection h with h; subst h
          show p ∈ (stringmultimap.Add g.treeOrder name parent).get c ↔ _
          rw [stringmultimap.get_Add]
          rcases eq_or_ne c name with hc | hc
          · subst hc; simp [StringSet.mem_Add]
          · simp [hc]

/-- Membership in the dependent sets after a successful `LinkDependency`. -/
theorem LinkDependency_get_graph {α : Type} {g g' : Graph α} {parent name : String}
    (h : g.LinkDependency parent name = .ok g') (p c : String) :
    (c ∈ g'.graphOrder.get p ↔ (p = parent ∧ c = name) ∨ c ∈ g.graphOrder.get p) := by
  unfold Graph.LinkDependency at h
  split at h
  · exact absurd h (by simp)
  · split at h
    · exact absurd h (by simp)
    · split at h
      · exact absurd h (by simp)
      · split at h
        · exact absurd h (by simp)
        · injection h with h; subst h
          show c ∈ (stringmultimap.Add g.graphOrder parent name).get p ↔ _
          rw [stringmultimap.get_Add]
          rcases eq_or_ne p parent with hp | hp
          · subst hp; simp [StringSet.mem_Add]
          · simp [hp]

/-- A successful `LinkDependency` leaves the action registry untouched and
requires both endpoints to be registered and non-empty. -/
theorem LinkDependency_ok_facts {α : Type} {g g' : Graph α} {parent name : String}
    (h : g.LinkDependency parent name = .ok g') :
    g'.actions = g.actions ∧ name ≠ "" ∧ parent ≠ "" ∧
      name ∈ g.keys ∧ parent ∈ g.keys := by
  unfold Graph.LinkDependency at h
  split at h
  · exact absurd h (by simp)
  · split at h
    · exact absurd h (by simp)
    · split at h
      · exact absurd h (by simp)
      · split at h
        · exact absurd h (by simp)
        · injection h with h; subst h
          refine ⟨rfl, by assumption, by assumption, ?_, ?_⟩
          · simp only [Graph.keys]
            exact mem_keys_of_not_isNone (by assumption)
          · simp only [Graph.keys]
            exact mem_keys_of_not_isNone (by assumption)

/-- `LinkDependency` succeeds exactly when both names are non-empty and
registered (in the source's check order the dependent is checked first). -/
theorem LinkDependency_ok_iff {α : Type} (g : Graph α) (parent name : String) :
    (∃ g', g.LinkDependency parent name = .ok g') ↔
      (name ≠ "" ∧ name ∈ g.keys ∧ parent ≠ "" ∧ parent ∈ g.keys) := by
  unfold Graph.LinkDependency
  by_cases h1 : name = ""
  · simp [h1]
  · rw [if_neg h1]
    by_cases h2 : (actionsGet? g.actions name).isNone
    · have : name ∉ g.keys := by
        simp only [Graph.keys]
        exact not_mem_keys_of_isNone h2
      simp [h2, h1, this]
    · have hname : name ∈ g.keys := by
        simp only [Graph.keys]
        exact mem_keys_of_not_isNone h2
      rw [if_neg h2]
      by_cases h3 : parent = ""
      · simp [h3, h1, hname]
      · rw [if_neg h3]
        by_cases h4 : (actionsGet? g.actions parent).isNone
        · have : parent ∉ g.keys := by
            simp only [Graph.keys]
            exact not_mem_keys_of_isNone h4
          simp [h4, h1, h3, hname, this]
        · have hpar : parent ∈ g.keys := by
            simp only [Graph.keys]
            exact mem_keys_of_not_isNone h4
          simp [h4, h1, h3, hname, hpar]

/-- `NewGraph` is well-formed. -/
theorem wellFormed_NewGraph (α : Type) : WellFormed (NewGraph : Graph α) := by
  refine ⟨?_, ?_, ?_, ?_, ?_, ?_, ?_, ?_, ?_⟩ <;> simp [NewGraph, Graph.keys]

/-- `AddAction` preserves well-formedness: it only touches the action
registry, never the adjacency maps. -/
theorem wellFormed_AddAction {α : Type} {g g' : Graph α} {name : String} {a : α}
    (hwf : WellFormed g) (h : g.AddAction name a = .ok g') : WellFormed g' := by
  unfold Graph.AddAction at h
  split at h
  · exact absurd h (by simp)
  · injection h with h; subst h
    obtain ⟨h1, h2, h3, h4, h5, h6, h7, h8, h9⟩ := hwf
    have hkeys : Graph.keys { g with actions := actionsSet g.actions name a } =
        if name ∈ g.keys then g.keys else g.keys ++ [name] := by
      simp only [Graph.keys]
      exact keys_actionsSet g.actions name a
    have hsub : ∀ x, x ∈ g.keys →
        x ∈ Graph.keys { g with actions := actionsSet g.actions name a } := by
      intro x hx
      rw [hkeys]; split <;> simp [hx]
    refine ⟨?_, h2, h3, h4, h5, h6, h7, ?_, ?_⟩
    · rw [hkeys]
      split
      · exact h1
      · exact List.Nodup.append h1 (List.nodup_singleton name)
          (by simpa [List.disjoint_singleton] using (by assumption : name ∉ g.keys))
    · exact fun e he => ⟨hsub _ (h8 e he).1, fun p hp => hsub _ ((h8 e he).2 p hp)⟩
    · exact fun e he => ⟨hsub _ (h9 e he).1, fun c hc => hsub _ ((h9 e he).2 c hc)⟩

/-- `LinkDependency` preserves well-formedness: the edge is inserted into
the two adjacency maps as an exact transposed pair, between two names that
are already registered. -/
theorem wellFormed_LinkDependency {α : Type} {g g' : Graph α} {parent name : String}
    (hwf : WellFormed g) (h : g.LinkDependency parent name = .ok g') :
    WellFormed g' := by
  obtain ⟨hacts, -, -, hnk, hpk⟩ := LinkDependency_ok_facts h
  have htree : g'.treeOrder = g.treeOrder.Add name parent := by
    unfold Graph.LinkDependency at h
    split at h; · exact absurd h (by simp)
    split at h; · exact absurd h (by simp)
    split at h; · exact absurd h (by simp)
    split at h; · exact absurd h (by simp)
    injection h with h; subst h; rfl
  have hgraph : g'.graphOrder = g.graphOrder.Add parent name := by
    unfold Graph.LinkDependency at h
    split at h; · exact absurd h (by simp)
    split at h; · exact absurd h (by simp)
    split at h; · exact absurd h (by simp)
    split at h; · exact absurd h (by simp)
    injection h with h; subst h; rfl
  obtain ⟨h1, h2, h3, h4, h5, h6, h7, h8, h9⟩ := hwf
  have hkeys : g'.keys = g.keys := by simp [Graph.keys, hacts]
  have htr : ∀ c p, p ∈ g'.treeOrder.get c ↔
      (c = name ∧ p = parent) ∨ p ∈ g.treeOrder.get c :=
    fun c p => LinkDependency_get_tree h c p
  have hgr : ∀ p c, c ∈ g'.graphOrder.get p ↔
      (p = parent ∧ c = name) ∨ c ∈ g.graphOrder.get p :=
    fun p c => LinkDependency_get_graph h p c
  have h2' : (g'.treeOrder.map Prod.fst).Nodup := by
    rw [htree]; exact stringmultimap.nodup_keys_Add h2
  have h3' : (g'.graphOrder.map Prod.fst).Nodup := by
    rw [hgraph]; exact stringmultimap.nodup_keys_Add h3
  refine ⟨hkeys ▸ h1, h2', h3', ?_, ?_, ?_, ?_, ?_, ?_⟩
  · rw [htree]; exact stringmultimap.vals_Add h4
  · rw [hgraph]; exact stringmultimap.vals_Add h5
  · intro e he p hp
    have hmem : p ∈ g'.treeOrder.get e.1 := by
      rw [stringmultimap.get_of_mem h2' (by exact he)]
      exact hp
    rw [hgr]
    rcases (htr e.1 p).mp hmem with ⟨hc, hq⟩ | hq
    · exact Or.inl ⟨hq, hc⟩
    · obtain ⟨s, hs, hps⟩ := stringmultimap.mem_get hq
      exact Or.inr (h6 (e.1, s) hs p hps)
  · intro e he c hc
    have hmem : c ∈ g'.graphOrder.get e.1 := by
      rw [stringmultimap.get_of_mem h3' (by exact he)]
      exact hc
    rw [htr]
    rcases (hgr e.1 c).mp hmem with ⟨hp, hq⟩ | hq
    · exact Or.inl ⟨hq, hp⟩
    · obtain ⟨s, hs, hcs⟩ := stringmultimap.mem_get hq
      exact Or.inr (h7 (e.1, s) hs c hcs)
  · intro e he
    have hmem : ∀ p ∈ (e.2 : StringSet), p ∈ g'.treeOrder.get e.1 := by
      intro p hp
      rw [stringmultimap.get_of_mem h2' (by exact he)]
      exact hp
    constructor
    · rcases (e.2 : StringSet).eq_nil_or_concat with hnil | ⟨l, x, hx⟩
      · -- an entry with an empty set: its key must already have been a key
        -- of the original map, since `Add` only creates non-empty sets
        by_cases hek : e.1 ∈ g.treeOrder.map Prod.fst
        · obtain ⟨e', he', hee⟩ := List.mem_map.mp hek
          rw [hkeys]
          exact hee ▸ (h8 e' he').1
        · -- the new entry: its key is `name`, registered by hypothesis
          have : e.1 = name ∨ e.1 ∈ g.treeOrder.map Prod.fst := by
            have := List.mem_map_of_mem Prod.fst he
            rw [htree, stringmultimap.keys_Add] at this
            split at this
            · exact Or.inr this
            · rcases List.mem_append.mp this with hh | hh
              · exact Or.inr hh
              · exact Or.inl (by simpa using hh)
          rcases this with hh | hh
          · rw [hkeys, hh]; exact hnk
          · exact absurd hh hek
      · have hx' : x ∈ (e.2 : StringSet) := by rw [hx]; simp
        have := (htr e.1 x).mp (hmem x hx')
        rw [hkeys]
        rcases this with ⟨hc, -⟩ | hq
        · rw [hc]; exact hnk
        · exact (WellFormed.edge_keys ⟨h1, h2, h3, h4, h5, h6, h7, h8, h9⟩ hq).1
    · intro p hp
      have := (htr e.1 p).mp (hmem p hp)
      rw [hkeys]
      rcases this with ⟨-, hq⟩ | hq
      · rw [hq]; exact hpk
      · exact (WellFormed.edge_keys ⟨h1, h2, h3, h4, h5, h6, h7, h8, h9⟩ hq).2
  · intro e he
    have hmem : ∀ c ∈ (e.2 : StringSet), c ∈ g'.graphOrder.get e.1 := by
      intro c hc
      rw [stringmultimap.get_of_mem h3' (by exact he)]
      exact hc
    constructor
    · rcases (e.2 : StringSet).eq_nil_or_concat with hnil | ⟨l, x, hx⟩
      · by_cases hek : e.1 ∈ g.graphOrder.map Prod.fst
        · obtain ⟨e', he', hee⟩ := List.mem_map.mp hek
          rw [hkeys]
          exact hee ▸ (h9 e' he').1
        · have : e.1 = parent ∨ e.1 ∈ g.graphOrder.map Prod.fst := by
            have := List.mem_map_of_mem Prod.fst he
            rw [hgraph, stringmultimap.keys_Add] at this
            split at this
            · exact Or.inr this
            · rcases List.mem_append.mp this with hh | hh
              · exact Or.inr hh
              · exact Or.inl (by simpa using hh)
          rcases this with hh | hh
          · rw [hkeys, hh]; exact hpk
          · exact absurd hh hek
      · have hx' : x ∈ (e.2 : StringSet) := by rw [hx]; simp
        have := (hgr e.1 x).mp (hmem x hx')
        rw [hkeys]
        rcases this with ⟨hc, -⟩ | hq
        · rw [hc]; exact hpk
        · obtain ⟨s, hs, hcs⟩ := stringmultimap.mem_get hq
          exact (h9 (e.1, s) hs).1
    · intro c hc
      have := (hgr e.1 c).mp (hmem c hc)
      rw [hkeys]
      rcases this with ⟨-, hq⟩ | hq
      · rw [hq]; exact hnk
      · obtain ⟨s, hs, hcs⟩ := stringmultimap.mem_get hq
        exact (h9 (e.1, s) hs).2 c hcs

/-! ## The resolving traversal (Graph.Resolve / dfsResolve / visit)

The Go `search` struct owns mutable maps shared by reference; the embedding
threads an explicit state.  Two ghost fields record what the Go runtime
keeps implicitly: `sched` is the list of `visit` calls (one goroutine
spawned, one latch created, one `wg.Add(1)` per entry), and `order` the
postorder in which `dfsResolve` calls return.  `searchContextDone()` is a
constant `c` during one traversal: the claims concern traversals whose
input context is either already done before `Resolve` is called or is
never cancelled while `Resolve` runs. -/

/-- The two failures `Graph.Resolve` can report. -/
inductive ResolveError where
  | cycleDetected
  | noRoots
deriving DecidableEq, Repr

/-- Go `search` (the per-Resolve session): `visited`, `path` as in the
source, plus the ghost bookkeeping described above.  The `waits` latch map
is not carried: latch sizes are a function of `g.treeOrder`, used by the
trace model below. -/
structure SearchSt where
  visited : StringSet
  path : StringSet
  sched : List String
  order : List String
deriving DecidableEq, Repr

/-- The result of the traversal.  Go mutates the session in place, so when
`dfsResolve` returns an error the session state at that moment still
exists (its goroutines have been spawned); the embedding carries it in the
error value. -/
abbrev DfsRes := Except (ResolveError × SearchSt) SearchSt

/-- Go `Graph.visit`: spawn the goroutine for `name` (recorded in the ghost
`sched`), creating its countdown latch sized to `len(g.treeOrder[name])`. -/
def Graph.visit (s : SearchSt) (name : String) : SearchSt :=
  { s with sched := s.sched ++ [name] }

/-- The loop over `g.treeOrder[name]` inside Go `Graph.dfsResolve`, with
the source's check order: cycle first, then visited, then context; `next`
is the recursive descent (`dfsResolveF` at one less fuel). -/
def dfsChildrenGo {α : Type} (g : Graph α) (c : Bool)
    (next : SearchSt → String → Option DfsRes) :
    SearchSt → List String → Option DfsRes
  | s, [] => some (.ok s)
  | s, child :: rest =>
    if s.path.Contains child then some (.error (.cycleDetected, s))
    else if s.visited.Contains child then dfsChildrenGo g c next s rest
    else if c then dfsChildrenGo g c next s rest
    else match next s child with
      | none => none
      | some (.error e) => some (.error e)
      | some (.ok s') => dfsChildrenGo g c next s' rest

/-- Go `Graph.dfsResolve`, fuel-indexed (`none` = out of fuel; `Resolve`
always supplies enough, see `dfsResolveF_isSome`).  Mark `name` visited and
on the active path, spawn its task (`visit`), then walk the prerequisites
`g.treeOrder[name]`: a child on the active path is a cycle, a visited
child is skipped, and otherwise the walk recurses unless the context is
already done.  On success `name` leaves the path and joins the ghost
postorder. -/
def Graph.dfsResolveF {α : Type} (g : Graph α) (c : Bool) (fuel : Nat) :
    SearchSt → String → Option DfsRes :=
  Nat.rec (motive := fun _ => SearchSt → String → Option DfsRes)
    (fun _ _ => none)
    (fun _ prev s name =>
      let s1 : SearchSt :=
        { s with visited := s.visited.Add name, path := s.path.Add name }
      let s2 := Graph.visit s1 name
      match dfsChildrenGo g c prev s2 (g.treeOrder.get name) with
      | none => none
      | some (.error e) => some (.error e)
      | some (.ok s3) =>
        some (.ok { s3 with path := s3.path.Remove name,
                            order := s3.order ++ [name] }))
    fuel

/-- The child loop at a given fuel level. -/
def Graph.dfsChildrenF {α : Type} (g : Graph α) (c : Bool) (fuel : Nat) :
    SearchSt → List String → Option DfsRes :=
  dfsChildrenGo g c (g.dfsResolveF c fuel)

/-- Every name mentioned anywhere in the graph. -/
def Graph.univList {α : Type} (g : Graph α) : List String :=
  g.keys ++ g.treeOrder.map Prod.fst ++ (g.treeOrder.map Prod.snd).flatten
    ++ g.graphOrder.map Prod.fst ++ (g.graphOrder.map Prod.snd).flatten

def Graph.univFinset {α : Type} (g : Graph α) : Finset String :=
  g.univList.toFinset

/-- The fuel `Resolve` hands to the traversal: enough for any state. -/
def Graph.searchFuel {α : Type} (g : Graph α) : Nat := g.univFinset.card + 1

/-- The session state a result carries. -/
def DfsRes.st : DfsRes → SearchSt
  | .ok s => s
  | .error (_, s) => s

/-- The traversal with the canonical fuel; `dfsResolveF_isSome` below shows
the fuel never runs out, so the default is never taken. -/
def Graph.dfsResolve {α : Type} (g : Graph α) (c : Bool) (s : SearchSt)
    (name : String) : DfsRes :=
  (g.dfsResolveF c g.searchFuel s name).getD (.ok s)

/-- The `for root := range g.collectRoots()` loop of Go `Graph.Resolve`:
depth-first resolve each root in turn, stopping at the first error. -/
def Graph.resolveLoop {α : Type} (g : Graph α) (c : Bool) :
    List String → SearchSt → DfsRes
  | [], s => .ok s
  | root :: rest, s =>
    match g.dfsResolve c s root with
    | .error e => .error e
    | .ok s' => g.resolveLoop c rest s'

/-- What Go `Graph.Resolve` returns, beyond the error: the session state
(whose `sched` lists the spawned tasks) and whether the derived context
was already done when `Resolve` returned — `done()` is called before
returning on every error path, and a pre-done input context makes the
derived context done from the start. -/
structure ResolveOut where
  err : Option ResolveError
  finalSt : SearchSt
  cancelledAtReturn : Bool
deriving DecidableEq, Repr

/-- Go `Graph.Resolve` on a given context (`preDone` = the input context is
already done) — runs the DFS from every root, failing with `noRoots` when
no root exists and propagating a `cycleDetected` from the traversal.  The
concurrent part (the spawned tasks and the completion barrier) is modelled
by the trace semantics below. -/
def Graph.Resolve {α : Type} (g : Graph α) (preDone : Bool) : ResolveOut :=
  if g.collectRoots.isEmpty then
    { err := some .noRoots, finalSt := ⟨[], [], [], []⟩, cancelledAtReturn := true }
  else
    match g.resolveLoop preDone g.collectRoots ⟨[], [], [], []⟩ with
    | .error (e, s) => { err := some e, finalSt := s, cancelledAtReturn := true }
    | .ok s => { err := none, finalSt := s, cancelledAtReturn := preDone }

/-! ## Reachability along prerequisite edges -/

/-- One prerequisite edge: `b` is a prerequisite of `a` (the traversal
steps from `a` to `b`). -/
def Graph.step {α : Type} (g : Graph α) (a b : String) : Prop :=
  b ∈ g.treeOrder.get a

instance {α : Type} (g : Graph α) (a b : String) : Decidable (g.step a b) :=
  inferInstanceAs (Decidable (b ∈ g.treeOrder.get a))

/-- `b` is reachable from `a` following prerequisite edges (reflexively). -/
def Graph.Reach {α : Type} (g : Graph α) (a b : String) : Prop :=
  Relation.ReflTransGen g.step a b

/-- A node lying on a prerequisite cycle and reachable from some root. -/
def Graph.HasReachableCycle {α : Type} (g : Graph α) : Prop :=
  ∃ r ∈ g.collectRoots, ∃ m, g.Reach r m ∧ Relation.TransGen g.step m m

/-- No node is reachable from itself through at least one prerequisite
edge. -/
def Graph.Acyclic {α : Type} (g : Graph α) : Prop :=
  ∀ n, ¬ Relation.TransGen g.step n n

/-! Unfolding lemmas for the fuel-indexed traversal. -/

theorem Graph.dfsResolveF_zero {α : Type} (g : Graph α) (c : Bool)
    (s : SearchSt) (name : String) : g.dfsResolveF c 0 s name = none := rfl

theorem Graph.dfsResolveF_succ {α : Type} (g : Graph α) (c : Bool) (fuel : Nat)
    (s : SearchSt) (name : String) :
    g.dfsResolveF c (fuel + 1) s name =
      (match Graph.dfsChildrenF g c fuel
          (Graph.visit { s with visited := s.visited.Add name,
                                path := s.path.Add name } name)
          (g.treeOrder.get name) with
      | none => none
      | some (.error e) => some (.error e)
      | some (.ok s3) =>
        some (.ok { s3 with path := s3.path.Remove name,
                            order := s3.order ++ [name] })) := rfl

theorem Graph.dfsChildrenF_nil {α : Type} (g : Graph α) (c : Bool) (fuel : Nat)
    (s : SearchSt) : g.dfsChildrenF c fuel s [] = some (.ok s) := rfl

theorem Graph.dfsChildrenF_cons {α : Type} (g : Graph α) (c : Bool) (fuel : Nat)
    (s : SearchSt) (child : String) (rest : List String) :
    g.dfsChildrenF c fuel s (child :: rest) =
      (if s.path.Contains child then some (.error (.cycleDetected, s))
      else if s.visited.Contains child then Graph.dfsChildrenF g c fuel s rest
      else if c then Graph.dfsChildrenF g c fuel s rest
      else match Graph.dfsResolveF g c fuel s child with
        | none => none
        | some (.error e) => some (.error e)
        | some (.ok s') => Graph.dfsChildrenF g c fuel s' rest) := rfl

/-! ## Invariants of the traversal -/

theorem Graph.dfs_visited_facts {α : Type} (g : Graph α) (c : Bool) :
    ∀ fuel : Nat,
      (∀ s name r, g.dfsResolveF c fuel s name = some r →
        (∀ x ∈ s.visited, x ∈ r.st.visited) ∧
        (∀ x ∈ r.st.visited, x ∈ s.visited ∨ g.Reach name x)) ∧
      (∀ s l r, g.dfsChildrenF c fuel s l = some r →
        (∀ x ∈ s.visited, x ∈ r.st.visited) ∧
        (∀ x ∈ r.st.visited, x ∈ s.visited ∨ ∃ ch ∈ l, g.Reach ch x)) := by
  intro fuel
  induction fuel with
  | zero =>
    constructor
    · intro s name r hr
      rw [Graph.dfsResolveF_zero] at hr
      exact absurd hr (by simp)
    · intro s l
      induction l generalizing s with
      | nil =>
        intro r hr
        rw [Graph.dfsChildrenF_nil] at hr
        injection hr with hr; subst hr
        exact ⟨fun x hx => hx, fun x hx => Or.inl hx⟩
      | cons ch rest ihl =>
        intro r hr
        rw [Graph.dfsChildrenF_cons] at hr
        split at hr
        · injection hr with hr; subst hr
          exact ⟨fun x hx => hx, fun x hx => Or.inl hx⟩
        · split at hr
          · obtain ⟨h1, h2⟩ := ihl s r hr
            refine ⟨h1, fun x hx => ?_⟩
            rcases h2 x hx with h | ⟨ch', hch', hre⟩
            · exact Or.inl h
            · exact Or.inr ⟨ch', List.mem_cons_of_mem _ hch', hre⟩
          · split at hr
            · obtain ⟨h1, h2⟩ := ihl s r hr
              refine ⟨h1, fun x hx => ?_⟩
              rcases h2 x hx with h | ⟨ch', hch', hre⟩
              · exact Or.inl h
              · exact Or.inr ⟨ch', List.mem_cons_of_mem _ hch', hre⟩
            · rw [Graph.dfsResolveF_zero] at hr
              exact absurd hr (by simp)
  | succ fuel ih =>
    have hnode : ∀ s name r, g.dfsResolveF c (fuel + 1) s name = some r →
        (∀ x ∈ s.visited, x ∈ r.st.visited) ∧
        (∀ x ∈ r.st.visited, x ∈ s.visited ∨ g.Reach name x) := by
      intro s name r hr
      rw [Graph.dfsResolveF_succ] at hr
      have hadd : ∀ x ∈ s.visited, x ∈ (s.visited.Add name) := by
        intro x hx; rw [StringSet.mem_Add]; exact Or.inr hx
      have hback : ∀ x ∈ (s.visited.Add name),
          x ∈ s.visited ∨ g.Reach name x := by
        intro x hx
        rcases StringSet.mem_Add.mp hx with h | h
        · exact Or.inr (h ▸ Relation.ReflTransGen.refl)
        · exact Or.inl h
      split at hr
      · exact absurd hr (by simp)
      case _ e heq =>
        injection hr with hr; subst hr
        obtain ⟨h1, h2⟩ := (ih).2 _ _ _ heq
        refine ⟨fun x hx => h1 x (hadd x hx), fun x hx => ?_⟩
        rcases h2 x hx with h | ⟨ch, hch, hre⟩
        · exact hback x h
        · exact Or.inr (Relation.ReflTransGen.head hch hre)
      case _ s3 heq =>
        injection hr with hr; subst hr
        obtain ⟨h1, h2⟩ := (ih).2 _ _ _ heq
        refine ⟨fun x hx => h1 x (hadd x hx), fun x hx => ?_⟩
        rcases h2 x hx with h | ⟨ch, hch, hre⟩
        · exact hback x h
        · exact Or.inr (Relation.ReflTransGen.head hch hre)
    refine ⟨hnode, ?_⟩
    intro s l
    induction l generalizing s with
    | nil =>
      intro r hr
      rw [Graph.dfsChildrenF_nil] at hr
      injection hr with hr; subst hr
      exact ⟨fun x hx => hx, fun x hx => Or.inl hx⟩
    | cons ch rest ihl =>
      intro r hr
      rw [Graph.dfsChildrenF_cons] at hr
      split at hr
      · injection hr with hr; subst hr
        exact ⟨fun x hx => hx, fun x hx => Or.inl hx⟩
      · split at hr
        · obtain ⟨h1, h2⟩ := ihl s r hr
          refine ⟨h1, fun x hx => ?_⟩
          rcases h2 x hx with h | ⟨ch', hch', hre⟩
          · exact Or.inl h
          · exact Or.inr ⟨ch', List.mem_cons_of_mem _ hch', hre⟩
        · split at hr
          · obtain ⟨h1, h2⟩ := ihl s r hr
            refine ⟨h1, fun x hx => ?_⟩
            rcases h2 x hx with h | ⟨ch', hch', hre⟩
            · exact Or.inl h
            · exact Or.inr ⟨ch', List.mem_cons_of_mem _ hch', hre⟩
          · split at hr
            · exact absurd hr (by simp)
            case _ e heq =>
              injection hr with hr; subst hr
              obtain ⟨h1, h2⟩ := hnode _ _ _ heq
              refine ⟨h1, fun x hx => ?_⟩
              rcases h2 x hx with h | hre
              · exact Or.inl h
              · exact Or.inr ⟨ch, List.mem_cons_self _ _, hre⟩
            case _ s' heq =>
              obtain ⟨h1, h2⟩ := hnode _ _ _ heq
              obtain ⟨h1', h2'⟩ := ihl s' r hr
              refine ⟨fun x hx => h1' x ?_, fun x hx => ?_⟩
              · have := h1 x hx
                simpa [DfsRes.st] using this
              · rcases h2' x hx with h | ⟨ch', hch', hre⟩
                · rcases h2 x (by simpa [DfsRes.st] using h) with hh | hre
                  · exact Or.inl hh
                  · exact Or.inr ⟨ch, List.mem_cons_self _ _, hre⟩
                · exact Or.inr ⟨ch', List.mem_cons_of_mem _ hch', hre⟩

/-- The session-state invariants maintained by the traversal: the ghost
task list agrees with `visited` and is duplicate-free (one goroutine per
node), the active path is a duplicate-free subset of `visited`, and the
finished nodes `order` are exactly the visited nodes no longer on the
active path. -/
def GoodSt (s : SearchSt) : Prop :=
  (∀ x, x ∈ s.sched ↔ x ∈ s.visited) ∧
  s.sched.Nodup ∧
  s.path.Nodup ∧
  (∀ x ∈ s.path, x ∈ s.visited) ∧
  s.order.Nodup ∧
  (∀ x, x ∈ s.visited ↔ (x ∈ s.path ∨ x ∈ s.order)) ∧
  (∀ x ∈ s.order, x ∉ s.path)

/-- `o` is topologically sorted with respect to prerequisite edges: every
prerequisite of a listed node occurs strictly earlier in the list. -/
def OrderTopo {α : Type} (g : Graph α) (o : List String) : Prop :=
  ∀ pre n post, o = pre ++ n :: post → ∀ ch ∈ g.treeOrder.get n, ch ∈ pre

theorem StringSet.Add_eq_cons {ss : StringSet} {s : String} (h : s ∉ ss) :
    ss.Add s = s :: ss := by
  unfold StringSet.Add
  exact if_neg h

theorem append_singleton_decomp {l pre post : List String} {a n : String}
    (h : l ++ [a] = pre ++ n :: post) :
    (pre = l ∧ n = a ∧ post = []) ∨
      ∃ post₀, post = post₀ ++ [a] ∧ l = pre ++ n :: post₀ := by
  induction pre generalizing l with
  | nil =>
    cases l with
    | nil =>
      simp only [List.nil_append] at h
      injection h with h1 h2
      exact Or.inl ⟨rfl, h1.symm, h2.symm⟩
    | cons x l' =>
      simp only [List.cons_append, List.nil_append] at h
      injection h with h1 h2
      exact Or.inr ⟨l', h2.symm, by rw [List.nil_append, h1]⟩
  | cons p pre' ih =>
    cases l with
    | nil =>
      simp only [List.nil_append, List.cons_append] at h
      injection h with h1 h2
      exact absurd h2.symm (by simp)
    | cons x l' =>
      simp only [List.cons_append] at h
      injection h with h1 h2
      rcases ih h2 with ⟨hp, hn, hpost⟩ | ⟨post₀, hpost, hl⟩
      · exact Or.inl ⟨by rw [hp, h1], hn, hpost⟩
      · exact Or.inr ⟨post₀, hpost, by rw [hl, h1, List.cons_append]⟩

theorem OrderTopo.nil {α : Type} (g : Graph α) : OrderTopo g [] := by
  intro pre n post h
  exact absurd h.symm (by simp)

theorem OrderTopo.append_one {α : Type} {g : Graph α} {o : List String} {a : String}
    (h : OrderTopo g o) (ha : ∀ ch ∈ g.treeOrder.get a, ch ∈ o) :
    OrderTopo g (o ++ [a]) := by
  intro pre n post hdec ch hch
  rcases append_singleton_decomp hdec with ⟨hp, hn, -⟩ | ⟨post₀, -, hl⟩
  · rw [hp]
    subst hn
    exact ha ch hch
  · exact h pre n post₀ hl ch hch

/-- Monotonicity of `visited` for the child loop, as a standalone fact. -/
theorem Graph.dfsChildrenF_visited_mono {α : Type} {g : Graph α} {c : Bool}
    {fuel : Nat} {s : SearchSt} {l : List String} {r : DfsRes}
    (h : g.dfsChildrenF c fuel s l = some r) :
    ∀ x ∈ s.visited, x ∈ r.st.visited :=
  ((g.dfs_visited_facts c fuel).2 s l r h).1

theorem Graph.dfsResolveF_visited_mono {α : Type} {g : Graph α} {c : Bool}
    {fuel : Nat} {s : SearchSt} {name : String} {r : DfsRes}
    (h : g.dfsResolveF c fuel s name = some r) :
    ∀ x ∈ s.visited, x ∈ r.st.visited :=
  ((g.dfs_visited_facts c fuel).1 s name r h).1

/-- Entering a node preserves the session invariants. -/
theorem GoodSt.entry {s : SearchSt} {name : String} (hg : GoodSt s)
    (hnv : name ∉ s.visited) (hnp : name ∉ s.path) :
    GoodSt (Graph.visit
      { s with visited := s.visited.Add name, path := s.path.Add name } name) := by
  obtain ⟨g1, g2, g3, g4, g5, g6, g7⟩ := hg
  have hv : s.visited.Add name = name :: s.visited := StringSet.Add_eq_cons hnv
  have hp : s.path.Add name = name :: s.path := StringSet.Add_eq_cons hnp
  refine ⟨?_, ?_, ?_, ?_, ?_, ?_, ?_⟩ <;>
    simp only [Graph.visit, hv, hp]
  · intro x
    simp only [List.mem_append, List.mem_singleton, List.mem_cons, g1 x]
    tauto
  · refine List.Nodup.append g2 (List.nodup_singleton name) ?_
    simp only [List.disjoint_singleton]
    exact fun hc => hnv ((g1 name).mp hc)
  · exact List.nodup_cons.mpr ⟨hnp, g3⟩
  · intro x hx
    rcases List.mem_cons.mp hx with h | h
    · exact h ▸ List.mem_cons_self _ _
    · exact List.mem_cons_of_mem _ (g4 x h)
  · exact g5
  · intro x
    simp only [List.mem_cons, g6 x]
    tauto
  · intro x hx
    have hxv : x ∈ s.visited := (g6 x).mpr (Or.inr hx)
    simp only [List.mem_cons]
    push_neg
    exact ⟨fun hc => hnv (hc ▸ hxv), g7 x hx⟩

/-- Leaving a node preserves the session invariants: the node moves from
the active path to the finished list. -/
theorem GoodSt.exit {s3 : SearchSt} {name : String} {p0 : List String}
    (hg : GoodSt s3) (hpath : s3.path = name :: p0) :
    GoodSt { s3 with path := s3.path.Remove name, order := s3.order ++ [name] } := by
  obtain ⟨g1, g2, g3, g4, g5, g6, g7⟩ := hg
  have hpf : s3.path.Remove name = p0 := by
    rw [hpath, StringSet.Remove, List.erase_cons_head]
  have hnp0 : name ∉ p0 := by
    have := g3
    rw [hpath] at this
    exact (List.nodup_cons.mp this).1
  have hnord : name ∉ s3.order := by
    intro hc
    exact g7 name hc (by rw [hpath]; exact List.mem_cons_self _ _)
  refine ⟨g1, g2, ?_, ?_, ?_, ?_, ?_⟩ <;> simp only [hpf]
  · have := g3
    rw [hpath] at this
    exact (List.nodup_cons.mp this).2
  · intro x hx
    exact g4 x (by rw [hpath]; exact List.mem_cons_of_mem _ hx)
  · refine List.Nodup.append g5 (List.nodup_singleton name) ?_
    simp only [List.disjoint_singleton]
    exact hnord
  · intro x
    rw [g6 x, hpath]
    simp only [List.mem_cons, List.mem_append, List.mem_singleton]
    tauto
  · intro x hx
    rcases List.mem_append.mp hx with h | h
    · intro hc
      exact g7 x h (by rw [hpath]; exact List.mem_cons_of_mem _ hc)
    · rw [List.mem_singleton] at h
      exact h ▸ hnp0

/-- The main preservation theorem for an uncancelled traversal: the session
invariants hold at every state the traversal produces (also at an error),
the finished list stays topologically sorted and only grows, a successful
call restores the active path, and every prerequisite of a successfully
finished node has itself finished. -/
theorem Graph.dfs_good_topo {α : Type} (g : Graph α) :
    ∀ fuel : Nat,
      (∀ s name r, g.dfsResolveF false fuel s name = some r →
        GoodSt s → name ∉ s.visited → name ∉ s.path → OrderTopo g s.order →
        (GoodSt r.st ∧ OrderTopo g r.st.order ∧ (∃ δ, r.st.order = s.order ++ δ) ∧
          ∀ s', r = .ok s' → s'.path = s.path ∧ name ∈ s'.order)) ∧
      (∀ s l r, g.dfsChildrenF false fuel s l = some r →
        GoodSt s → OrderTopo g s.order →
        (GoodSt r.st ∧ OrderTopo g r.st.order ∧ (∃ δ, r.st.order = s.order ++ δ) ∧
          ∀ s', r = .ok s' → s'.path = s.path ∧
            ∀ ch ∈ l, ch ∈ s'.visited ∧ ch ∉ s.path)) := by
  intro fuel
  induction fuel with
  | zero =>
    constructor
    · intro s name r hr
      rw [Graph.dfsResolveF_zero] at hr
      exact absurd hr (by simp)
    · intro s l
      induction l generalizing s with
      | nil =>
        intro r hr hg ht
        rw [Graph.dfsChildrenF_nil] at hr
        injection hr with hr; subst hr
        exact ⟨hg, ht, ⟨[], by simp [DfsRes.st]⟩,
          fun s' h => by injection h with h; subst h; exact ⟨rfl, by simp⟩⟩
      | cons ch rest ihl =>
        intro r hr hg ht
        rw [Graph.dfsChildrenF_cons] at hr
        split at hr
        · injection hr with hr; subst hr
          exact ⟨hg, ht, ⟨[], by simp [DfsRes.st]⟩, fun s' h => by simp at h⟩
        · split at hr
          case _ hchv =>
            obtain ⟨G, T, hsuf, hok⟩ := ihl s r hr hg ht
            refine ⟨G, T, hsuf, fun s' h => ?_⟩
            obtain ⟨hpth, hrest⟩ := hok s' h
            refine ⟨hpth, fun ch' hch' => ?_⟩
            rcases List.mem_cons.mp hch' with h1 | h1
            · subst h1
              refine ⟨?_, by assumption⟩
              have := Graph.dfsChildrenF_visited_mono hr ch' hchv
              rw [h] at this
              simpa [DfsRes.st] using this
            · exact hrest ch' h1
          · split at hr
            case _ hc => simp at hc
            · rw [Graph.dfsResolveF_zero] at hr
              exact absurd hr (by simp)
  | succ fuel ih =>
    have hnode : ∀ s name r, g.dfsResolveF false (fuel + 1) s name = some r →
        GoodSt s → name ∉ s.visited → name ∉ s.path → OrderTopo g s.order →
        (GoodSt r.st ∧ OrderTopo g r.st.order ∧ (∃ δ, r.st.order = s.order ++ δ) ∧
          ∀ s', r = .ok s' → s'.path = s.path ∧ name ∈ s'.order) := by
      intro s name r hr hg hnv hnp ht
      rw [Graph.dfsResolveF_succ] at hr
      have hg2 : GoodSt (Graph.visit
          { s with visited := s.visited.Add name, path := s.path.Add name } name) :=
        GoodSt.entry hg hnv hnp
      have hpath2 : (Graph.visit
          { s with visited := s.visited.Add name, path := s.path.Add name }
          name).path = name :: s.path := by
        simp [Graph.visit, StringSet.Add_eq_cons hnp]
      have horder2 : (Graph.visit
          { s with visited := s.visited.Add name, path := s.path.Add name }
          name).order = s.order := rfl
      split at hr
      · exact absurd hr (by simp)
      case _ e heq =>
        injection hr with hr; subst hr
        obtain ⟨G, T, ⟨δ, hδ⟩, -⟩ := (ih).2 _ _ _ heq hg2 (horder2 ▸ ht)
        exact ⟨G, T, ⟨δ, by rw [hδ, horder2]⟩, fun s' h => by simp at h⟩
      case _ s3 heq =>
        injection hr with hr; subst hr
        obtain ⟨G3, T3, ⟨δ, hδ⟩, hok⟩ := (ih).2 _ _ _ heq hg2 (horder2 ▸ ht)
        have hok3 := hok s3 rfl
        have hpath3 : s3.path = name :: s.path := by
          rw [(by simpa [DfsRes.st] using hok3.1 : s3.path = _), hpath2]
        have hchn : ∀ ch ∈ g.treeOrder.get name, ch ∈ s3.order := by
          intro ch hch
          obtain ⟨hchv, hchp⟩ := hok3.2 ch hch
          have hG3 : GoodSt s3 := by simpa [DfsRes.st] using G3
          rcases (hG3.2.2.2.2.2.1 ch).mp (by simpa [DfsRes.st] using hchv) with h | h
          · exfalso
            apply hchp
            rw [hpath2, ← hpath3]
            exact h
          · exact h
        have hG3 : GoodSt s3 := by simpa [DfsRes.st] using G3
        have hT3 : OrderTopo g s3.order := by simpa [DfsRes.st] using T3
        refine ⟨GoodSt.exit hG3 hpath3, ?_, ?_, ?_⟩
        · exact OrderTopo.append_one hT3 hchn
        · refine ⟨δ ++ [name], ?_⟩
          have hδ' : s3.order = s.order ++ δ := by simpa [DfsRes.st] using hδ
          show s3.order ++ [name] = s.order ++ (δ ++ [name])
          rw [hδ', List.append_assoc]
        · intro s' h
          injection h with h; subst h
          constructor
          · show s3.path.Remove name = s.path
            rw [hpath3, StringSet.Remove, List.erase_cons_head]
          · show name ∈ s3.order ++ [name]
            simp
    refine ⟨hnode, ?_⟩
    intro s l
    induction l generalizing s with
    | nil =>
      intro r hr hg ht
      rw [Graph.dfsChildrenF_nil] at hr
      injection hr with hr; subst hr
      exact ⟨hg, ht, ⟨[], by simp [DfsRes.st]⟩,
        fun s' h => by injection h with h; subst h; exact ⟨rfl, by simp⟩⟩
    | cons ch rest ihl =>
      intro r hr hg ht
      rw [Graph.dfsChildrenF_cons] at hr
      split at hr
      · injection hr with hr; subst hr
        exact ⟨hg, ht, ⟨[], by simp [DfsRes.st]⟩, fun s' h => by simp at h⟩
      · split at hr
        case _ hchv =>
          obtain ⟨G, T, hsuf, hok⟩ := ihl s r hr hg ht
          refine ⟨G, T, hsuf, fun s' h => ?_⟩
          obtain ⟨hpth, hrest⟩ := hok s' h
          refine ⟨hpth, fun ch' hch' => ?_⟩
          rcases List.mem_cons.mp hch' with h1 | h1
          · subst h1
            refine ⟨?_, by assumption⟩
            have := Graph.dfsChildrenF_visited_mono hr ch' hchv
            rw [h] at this
            simpa [DfsRes.st] using this
          · exact hrest ch' h1
        · split at hr
          case _ hc => simp at hc
          · split at hr
            · exact absurd hr (by simp)
            case _ e heq =>
              injection hr with hr; subst hr
              obtain ⟨G, T, hsuf, -⟩ :=
                hnode _ _ _ heq hg (by assumption) (by assumption) ht
              exact ⟨G, T, hsuf, fun s' h => by simp at h⟩
            case _ s'' heq =>
              obtain ⟨G2, T2, ⟨δ1, hδ1⟩, hok2⟩ :=
                hnode _ _ _ heq hg (by assumption) (by assumption) ht
              have hG2 : GoodSt s'' := by simpa [DfsRes.st] using G2
              have hT2 : OrderTopo g s''.order := by simpa [DfsRes.st] using T2
              obtain ⟨G, T, ⟨δ2, hδ2⟩, hok⟩ := ihl s'' r hr hG2 hT2
              have hok2' := hok2 s'' rfl
              refine ⟨G, T, ⟨δ1 ++ δ2, ?_⟩, fun s' h => ?_⟩
              · rw [hδ2, (by simpa [DfsRes.st] using hδ1 : s''.order = s.order ++ δ1),
                  List.append_assoc]
              · obtain ⟨hpth, hrest⟩ := hok s' h
                refine ⟨by rw [hpth, hok2'.1], fun ch' hch' => ?_⟩
                rcases List.mem_cons.mp hch' with h1 | h1
                · subst h1
                  refine ⟨?_, by assumption⟩
                  have hin2 : ch' ∈ s''.visited :=
                    (hG2.2.2.2.2.2.1 ch').mpr (Or.inr hok2'.2)
                  have := Graph.dfsChildrenF_visited_mono hr ch' hin2
                  rw [h] at this
                  simpa [DfsRes.st] using this
                · obtain ⟨hv, hp⟩ := hrest ch' h1
                  exact ⟨hv, by rw [← hok2'.1]; exact hp⟩

/-- Successful calls restore the active path (any context). -/
theorem Graph.dfs_path_restore {α : Type} (g : Graph α) (c : Bool) :
    ∀ fuel : Nat,
      (∀ s name s', g.dfsResolveF c fuel s name = some (.ok s') →
        name ∉ s.path → s'.path = s.path) ∧
      (∀ s l s', g.dfsChildrenF c fuel s l = some (.ok s') → s'.path = s.path) := by
  intro fuel
  induction fuel with
  | zero =>
    constructor
    · intro s name s' hr
      rw [Graph.dfsResolveF_zero] at hr
      exact absurd hr (by simp)
    · intro s l
      induction l generalizing s with
      | nil =>
        intro s' hr
        rw [Graph.dfsChildrenF_nil] at hr
        injection hr with hr; injection hr with hr; subst hr; rfl
      | cons ch rest ihl =>
        intro s' hr
        rw [Graph.dfsChildrenF_cons] at hr
        split at hr
        · injection hr with hr; injection hr
        · split at hr
          · exact ihl s s' hr
          · split at hr
            · exact ihl s s' hr
            · rw [Graph.dfsResolveF_zero] at hr
              exact absurd hr (by simp)
  | succ fuel ih =>
    have hnode : ∀ s name s', g.dfsResolveF c (fuel + 1) s name = some (.ok s') →
        name ∉ s.path → s'.path = s.path := by
      intro s name s' hr hnp
      rw [Graph.dfsResolveF_succ] at hr
      split at hr
      · exact absurd hr (by simp)
      · injection hr with hr; injection hr
      case _ s3 heq =>
        injection hr with hr; injection hr with hr; subst hr
        have h3 := (ih).2 _ _ _ heq
        show s3.path.Remove name = s.path
        rw [h3]
        show ((Graph.visit _ name).path).Remove name = s.path
        simp only [Graph.visit]
        rw [StringSet.Add_eq_cons hnp, StringSet.Remove, List.erase_cons_head]
    refine ⟨hnode, ?_⟩
    intro s l
    induction l generalizing s with
    | nil =>
      intro s' hr
      rw [Graph.dfsChildrenF_nil] at hr
      injection hr with hr; injection hr with hr; subst hr; rfl
    | cons ch rest ihl =>
      intro s' hr
      rw [Graph.dfsChildrenF_cons] at hr
      split at hr
      · injection hr with hr; injection hr
      · split at hr
        · exact ihl s s' hr
        · split at hr
          · exact ihl s s' hr
          · split at hr
            · exact absurd hr (by simp)
            · injection hr with hr; injection hr
            case _ s'' heq =>
              rw [ihl s'' s' hr, hnode _ _ _ heq (by assumption)]

theorem StringSet.toFinset_Add (ss : StringSet) (s : String) :
    (ss.Add s).toFinset = insert s ss.toFinset := by
  unfold StringSet.Add
  split
  · rw [Finset.insert_eq_self.mpr (by simpa using (by assumption : s ∈ ss))]
  · simp

/-- Children looked up in the prerequisite map are in the name universe. -/
theorem Graph.child_mem_univ {α : Type} (g : Graph α) {k ch : String}
    (h : ch ∈ g.treeOrder.get k) : ch ∈ g.univFinset := by
  obtain ⟨s, hs, hcs⟩ := stringmultimap.mem_get h
  unfold Graph.univFinset Graph.univList
  simp only [List.mem_toFinset, List.mem_append]
  refine Or.inl (Or.inl (Or.inr ?_))
  simp only [List.mem_flatten, List.mem_map]
  exact ⟨s, ⟨(k, s), hs, rfl⟩, hcs⟩

/-- The canonical fuel never runs out: the number of unvisited universe
names bounds the recursion depth. -/
theorem Graph.dfs_fuel_sufficient {α : Type} (g : Graph α) (c : Bool) :
    ∀ fuel : Nat,
      (∀ s name,
        (g.univFinset \ insert name s.visited.toFinset).card < fuel →
        (g.dfsResolveF c fuel s name).isSome) ∧
      (∀ s l, (∀ ch ∈ l, ch ∈ g.univFinset) →
        (g.univFinset \ s.visited.toFinset).card ≤ fuel →
        (g.dfsChildrenF c fuel s l).isSome) := by
  intro fuel
  induction fuel with
  | zero =>
    constructor
    · intro s name h
      exact absurd h (by simp)
    · intro s l
      induction l generalizing s with
      | nil =>
        intro _ _
        rw [Graph.dfsChildrenF_nil]; simp
      | cons ch rest ihl =>
        intro hu h
        rw [Graph.dfsChildrenF_cons]
        split
        · simp
        · split
          · exact ihl s (fun x hx => hu x (List.mem_cons_of_mem _ hx)) h
          · split
            · exact ihl s (fun x hx => hu x (List.mem_cons_of_mem _ hx)) h
            · exfalso
              have hch : ch ∈ g.univFinset \ s.visited.toFinset := by
                rw [Finset.mem_sdiff]
                exact ⟨hu ch (List.mem_cons_self _ _),
                  by simpa using (by assumption : ¬ s.visited.Contains ch)⟩
              have := Finset.card_pos.mpr ⟨ch, hch⟩
              omega
  | succ fuel ih =>
    have hnode : ∀ s name,
        (g.univFinset \ insert name s.visited.toFinset).card < fuel + 1 →
        (g.dfsResolveF c (fuel + 1) s name).isSome := by
      intro s name h
      rw [Graph.dfsResolveF_succ]
      have hu : ∀ ch ∈ g.treeOrder.get name, ch ∈ g.univFinset :=
        fun ch hch => g.child_mem_univ hch
      have hcard : (g.univFinset \ (s.visited.Add name).toFinset).card ≤ fuel := by
        rw [StringSet.toFinset_Add]
        omega
      have := (ih).2
        (Graph.visit
          { s with visited := s.visited.Add name, path := s.path.Add name } name)
        (g.treeOrder.get name) hu hcard
      obtain ⟨r, hr⟩ := Option.isSome_iff_exists.mp this
      rw [hr]
      rcases r with e | s3 <;> simp
    refine ⟨hnode, ?_⟩
    intro s l
    induction l generalizing s with
    | nil =>
      intro _ _
      rw [Graph.dfsChildrenF_nil]; simp
    | cons ch rest ihl =>
      intro hu h
      rw [Graph.dfsChildrenF_cons]
      split
      · simp
      · split
        · exact ihl s (fun x hx => hu x (List.mem_cons_of_mem _ hx)) h
        · split
          · exact ihl s (fun x hx => hu x (List.mem_cons_of_mem _ hx)) h
          · have hch : ch ∈ g.univFinset \ s.visited.toFinset := by
              rw [Finset.mem_sdiff]
              exact ⟨hu ch (List.mem_cons_self _ _),
                by simpa using (by assumption : ¬ s.visited.Contains ch)⟩
            have hlt : (g.univFinset \ insert ch s.visited.toFinset).card <
                (g.univFinset \ s.visited.toFinset).card := by
              apply Finset.card_lt_card
              constructor
              · exact Finset.sdiff_subset_sdiff (Finset.Subset.refl _)
                  (Finset.subset_insert _ _)
              · intro hsub
                have := hsub (Finset.mem_sdiff.mpr
                  ⟨(Finset.mem_sdiff.mp hch).1, (Finset.mem_sdiff.mp hch).2⟩)
                rw [Finset.mem_sdiff] at this
                exact this.2 (Finset.mem_insert_self _ _)
            have := hnode s ch (by omega)
            obtain ⟨r, hr⟩ := Option.isSome_iff_exists.mp this
            rw [hr]
            rcases r with e | s''
            · simp
            case _ =>
              have hmono := Graph.dfsResolveF_visited_mono hr
              refine ihl s'' (fun x hx => hu x (List.mem_cons_of_mem _ hx)) ?_
              refine le_trans (Finset.card_le_card ?_) h
              apply Finset.sdiff_subset_sdiff (Finset.Subset.refl _)
              intro x hx
              rw [List.mem_toFinset] at hx ⊢
              simpa [DfsRes.st] using hmono x hx

theorem Graph.dfsResolveF_isSome {α : Type} (g : Graph α) (c : Bool)
    (s : SearchSt) (name : String) :
    (g.dfsResolveF c g.searchFuel s name).isSome := by
  apply (g.dfs_fuel_sufficient c g.searchFuel).1
  have hsub : g.univFinset \ insert name s.visited.toFinset ⊆ g.univFinset :=
    Finset.sdiff_subset
  have := Finset.card_le_card hsub
  unfold Graph.searchFuel
  omega

theorem Graph.dfsResolve_spec {α : Type} (g : Graph α) (c : Bool)
    (s : SearchSt) (name : String) :
    g.dfsResolveF c g.searchFuel s name = some (g.dfsResolve c s name) := by
  obtain ⟨r, hr⟩ := Option.isSome_iff_exists.mp (g.dfsResolveF_isSome c s name)
  unfold Graph.dfsResolve
  rw [hr]
  rfl

/-- The active path is a chain of prerequisite edges: each entry is a
prerequisite of the entry below it on the stack. -/
def IsChain {α : Type} (g : Graph α) : List String → Prop
  | [] => True
  | [_] => True
  | a :: b :: t => g.step b a ∧ IsChain g (b :: t)

theorem IsChain.tail {α : Type} {g : Graph α} {a : String} {l : List String}
    (h : IsChain g (a :: l)) : IsChain g l := by
  cases l with
  | nil => trivial
  | cons b t => exact h.2

/-- Every chain member reaches the top of the stack. -/
theorem IsChain.reach_head {α : Type} {g : Graph α} :
    ∀ {l : List String} {a x : String}, IsChain g (a :: l) → x ∈ a :: l →
      g.Reach x a := by
  intro l
  induction l with
  | nil =>
    intro a x _ hx
    rw [List.mem_singleton] at hx
    exact hx ▸ Relation.ReflTransGen.refl
  | cons b t ih =>
    intro a x hc hx
    rcases List.mem_cons.mp hx with h | h
    · exact h ▸ Relation.ReflTransGen.refl
    · exact Relation.ReflTransGen.tail (ih hc.2 h) hc.1

/-- The bottom of the stack (the root the traversal started from) reaches
every chain member. -/
theorem IsChain.reach_last {α : Type} {g : Graph α} :
    ∀ {l : List String} (h : l ≠ []), IsChain g l → ∀ {x}, x ∈ l →
      g.Reach (l.getLast h) x := by
  intro l
  induction l with
  | nil => intro h; exact absurd rfl h
  | cons a t ih =>
    intro _ hc x hx
    cases t with
    | nil =>
      rw [List.mem_singleton] at hx
      subst hx
      exact Relation.ReflTransGen.refl
    | cons b t' =>
      rw [List.getLast_cons (List.cons_ne_nil b t')]
      rcases List.mem_cons.mp hx with h | h
      · subst h
        exact Relation.ReflTransGen.tail
          (ih (List.cons_ne_nil b t') hc.2 (List.mem_cons_self _ _)) hc.1
      · exact ih (List.cons_ne_nil b t') hc.2 h

/-- A `cycleDetected` error is honest: it exhibits a node on a genuine
prerequisite cycle, reachable from the node the traversal started at. -/
theorem Graph.dfs_cycle_of_error {α : Type} (g : Graph α) (c : Bool) :
    ∀ fuel : Nat,
      (∀ s name e, g.dfsResolveF c fuel s name = some (.error e) →
        name ∉ s.path → IsChain g (name :: s.path) →
        e.1 = ResolveError.cycleDetected ∧
        ∃ m, Relation.TransGen g.step m m ∧
          g.Reach ((name :: s.path).getLast (List.cons_ne_nil _ _)) m) ∧
      (∀ s l e name p0, g.dfsChildrenF c fuel s l = some (.error e) →
        s.path = name :: p0 → IsChain g s.path → (∀ ch ∈ l, g.step name ch) →
        e.1 = ResolveError.cycleDetected ∧
        ∃ m, Relation.TransGen g.step m m ∧
          g.Reach ((name :: p0).getLast (List.cons_ne_nil _ _)) m) := by
  intro fuel
  induction fuel with
  | zero =>
    constructor
    · intro s name e hr
      rw [Graph.dfsResolveF_zero] at hr
      exact absurd hr (by simp)
    · intro s l
      induction l generalizing s with
      | nil =>
        intro e name p0 hr
        rw [Graph.dfsChildrenF_nil] at hr
        injection hr with hr; injection hr
      | cons ch rest ihl =>
        intro e name p0 hr hpath hchain hstep
        rw [Graph.dfsChildrenF_cons] at hr
        split at hr
        case _ hhit =>
          refine ⟨?_, ch, ?_, ?_⟩
          · injection hr with hr
            injection hr with hr
            rw [← hr]
          · exact Relation.TransGen.tail'
              (by
                have : ch ∈ name :: p0 := by rw [← hpath]; exact hhit
                exact IsChain.reach_head (hpath ▸ hchain) this)
              (hstep ch (List.mem_cons_self _ _))
          · exact IsChain.reach_last (List.cons_ne_nil _ _) (hpath ▸ hchain)
              (by rw [← hpath]; exact hhit)
        · split at hr
          · exact ihl s e name p0 hr hpath hchain
              (fun x hx => hstep x (List.mem_cons_of_mem _ hx))
          · split at hr
            · exact ihl s e name p0 hr hpath hchain
                (fun x hx => hstep x (List.mem_cons_of_mem _ hx))
            · rw [Graph.dfsResolveF_zero] at hr
              exact absurd hr (by simp)
  | succ fuel ih =>
    have hnode : ∀ s name e, g.dfsResolveF c (fuel + 1) s name = some (.error e) →
        name ∉ s.path → IsChain g (name :: s.path) →
        e.1 = ResolveError.cycleDetected ∧
        ∃ m, Relation.TransGen g.step m m ∧
          g.Reach ((name :: s.path).getLast (List.cons_ne_nil _ _)) m := by
      intro s name e hr hnp hchain
      rw [Graph.dfsResolveF_succ] at hr
      split at hr
      · exact absurd hr (by simp)
      case _ e' heq =>
        injection hr with hr
        have hpath2 : (Graph.visit
            { s with visited := s.visited.Add name, path := s.path.Add name }
            name).path = name :: s.path := by
          simp [Graph.visit, StringSet.Add_eq_cons hnp]
        obtain ⟨hkind, hrest⟩ := (ih).2 _ _ _ name s.path heq hpath2
          (hpath2 ▸ hchain) (fun ch hch => hch)
        exact ⟨by injection hr with hr; rw [← hr]; exact hkind, hrest⟩
      · injection hr with hr; injection hr
    refine ⟨hnode, ?_⟩
    intro s l
    induction l generalizing s with
    | nil =>
      intro e name p0 hr
      rw [Graph.dfsChildrenF_nil] at hr
      injection hr with hr; injection hr
    | cons ch rest ihl =>
      intro e name p0 hr hpath hchain hstep
      rw [Graph.dfsChildrenF_cons] at hr
      split at hr
      case _ hhit =>
        refine ⟨?_, ch, ?_, ?_⟩
        · injection hr with hr
          injection hr with hr
          rw [← hr]
        · exact Relation.TransGen.tail'
            (by
              have : ch ∈ name :: p0 := by rw [← hpath]; exact hhit
              exact IsChain.reach_head (hpath ▸ hchain) this)
            (hstep ch (List.mem_cons_self _ _))
        · exact IsChain.reach_last (List.cons_ne_nil _ _) (hpath ▸ hchain)
            (by rw [← hpath]; exact hhit)
      · split at hr
        · exact ihl s e name p0 hr hpath hchain
            (fun x hx => hstep x (List.mem_cons_of_mem _ hx))
        · split at hr
          · exact ihl s e name p0 hr hpath hchain
              (fun x hx => hstep x (List.mem_cons_of_mem _ hx))
          · split at hr
            · exact absurd hr (by simp)
            case _ e' heq =>
              injection hr with hr
              have hne : ch ∉ s.path := by assumption
              have hchain2 : IsChain g (ch :: s.path) := by
                rw [hpath]
                exact ⟨hstep ch (List.mem_cons_self _ _), hpath ▸ hchain⟩
              obtain ⟨hkind, m, hm, hre⟩ := hnode _ _ _ heq hne hchain2
              refine ⟨by injection hr with hr; rw [← hr]; exact hkind, m, hm, ?_⟩
              have : (ch :: s.path).getLast (List.cons_ne_nil _ _) =
                  (name :: p0).getLast (List.cons_ne_nil _ _) := by
                rw [List.getLast_cons (by rw [hpath]; exact List.cons_ne_nil _ _)]
                congr 1
              rw [← this]
              exact hre
            case _ s'' heq =>
              have hne : ch ∉ s.path := by assumption
              have hrestore : s''.path = s.path :=
                (g.dfs_path_restore c (fuel + 1)).1 _ _ _ heq hne
              exact ihl s'' e name p0 hr (by rw [hrestore, hpath])
                (by rw [hrestore]; exact hchain)
                (fun x hx => hstep x (List.mem_cons_of_mem _ hx))

/-- With the context already done, the child loop neither recurses nor
changes the session: every child is either skipped on the `visited` check
or on the context check, provided none closes a cycle with the path. -/
theorem Graph.dfsChildrenF_true {α : Type} (g : Graph α) (fuel : Nat) :
    ∀ (l : List String) (s : SearchSt), (∀ ch ∈ l, ch ∉ s.path) →
      g.dfsChildrenF true fuel s l = some (.ok s) := by
  intro l
  induction l with
  | nil =>
    intro s _
    rw [Graph.dfsChildrenF_nil]
  | cons ch rest ih =>
    intro s h
    rw [Graph.dfsChildrenF_cons]
    have hc : ¬ s.path.Contains ch := h ch (List.mem_cons_self _ _)
    rw [if_neg hc]
    split
    · exact ih s (fun x hx => h x (List.mem_cons_of_mem _ hx))
    · simp only [if_pos rfl]
      exact ih s (fun x hx => h x (List.mem_cons_of_mem _ hx))

/-- With the context already done, visiting a node only marks it visited,
spawns its task and finishes it: no recursion into prerequisites. -/
theorem Graph.dfsResolveF_true {α : Type} (g : Graph α) (fuel : Nat)
    (s : SearchSt) (name : String) (hnp : name ∉ s.path)
    (hch : ∀ ch ∈ g.treeOrder.get name, ch ∉ name :: s.path) :
    g.dfsResolveF true (fuel + 1) s name =
      some (.ok ⟨s.visited.Add name, s.path, s.sched ++ [name],
        s.order ++ [name]⟩) := by
  rw [Graph.dfsResolveF_succ]
  have hpath2 : (Graph.visit
      { s with visited := s.visited.Add name, path := s.path.Add name }
      name).path = name :: s.path := by
    simp [Graph.visit, StringSet.Add_eq_cons hnp]
  rw [g.dfsChildrenF_true fuel _ _ (by rw [hpath2]; exact hch)]
  have hp : (s.path.Add name).Remove name = s.path := by
    rw [StringSet.Add_eq_cons hnp, StringSet.Remove, List.erase_cons_head]
  show some (Except.ok (SearchSt.mk (s.visited.Add name)
      ((s.path.Add name).Remove name) (s.sched ++ [name])
      (s.order ++ [name]))) = _
  rw [hp]

/-- Membership in the computed root set. -/
theorem Graph.mem_collectRoots_iff {α : Type} (g : Graph α) (n : String) :
    n ∈ g.collectRoots ↔ n ∈ g.keys ∧ g.graphOrder.get n = [] := by
  unfold Graph.collectRoots
  rw [List.mem_filter]
  constructor
  · intro ⟨h1, h2⟩
    exact ⟨h1, by simpa using h2⟩
  · intro ⟨h1, h2⟩
    exact ⟨h1, by simpa using h2⟩

theorem Graph.collectRoots_nodup {α : Type} {g : Graph α} (hwf : WellFormed g) :
    g.collectRoots.Nodup :=
  List.Nodup.filter _ hwf.1

/-- Nothing reaches a root except itself: roots have no dependents, so no
prerequisite edge points at them. -/
theorem Graph.reach_root_eq {α : Type} {g : Graph α} (hwf : WellFormed g)
    {r n : String} (hn : g.graphOrder.get n = []) (h : g.Reach r n) : r = n := by
  rcases Relation.ReflTransGen.cases_tail h with h1 | ⟨c, -, hc⟩
  · exact h1.symm
  · exfalso
    have := (hwf.transpose n c).mp hc
    rw [hn] at this
    exact absurd this (List.not_mem_nil _)

theorem Graph.keys_subset_univ {α : Type} (g : Graph α) {n : String}
    (h : n ∈ g.keys) : n ∈ g.univFinset := by
  unfold Graph.univFinset Graph.univList
  simp only [List.mem_toFinset, List.mem_append]
  exact Or.inl (Or.inl (Or.inl (Or.inl h)))

/-- A graph whose prerequisite edges carry a strictly decreasing rank is
acyclic — the executable certificate used by concrete witnesses. -/
theorem Graph.acyclic_of_rank {α : Type} (g : Graph α) (rank : String → Nat)
    (h : ∀ e ∈ g.treeOrder, ∀ v ∈ (e.2 : StringSet), rank v < rank e.1) :
    g.Acyclic := by
  have hstep : ∀ a b, g.step a b → rank b < rank a := by
    intro a b hab
    obtain ⟨s, hs, hbs⟩ := stringmultimap.mem_get hab
    exact h (a, s) hs b hbs
  intro n hn
  have hmono : ∀ a b, Relation.TransGen g.step a b → rank b < rank a := by
    intro a b hab
    induction hab with
    | single h1 => exact hstep _ _ h1
    | tail _ h2 ih => exact lt_trans (hstep _ _ h2) ih
  exact absurd (hmono n n hn) (lt_irrefl _)

/-- In a well-formed acyclic graph, every registered node is reachable from
some root: follow dependents upward until a node with none remains. -/
theorem Graph.reach_from_root {α : Type} {g : Graph α} (hwf : WellFormed g)
    (hac : g.Acyclic) : ∀ n ∈ g.keys, ∃ r ∈ g.collectRoots, g.Reach r n := by
  have hwfR : WellFounded (fun a b : {x // x ∈ g.univFinset} =>
      Relation.TransGen g.step a.1 b.1) := by
    have h1 : IsTrans {x // x ∈ g.univFinset}
        (fun a b => Relation.TransGen g.step a.1 b.1) :=
      ⟨fun _ _ _ hab hbc => hab.trans hbc⟩
    have h2 : IsIrrefl {x // x ∈ g.univFinset}
        (fun a b => Relation.TransGen g.step a.1 b.1) :=
      ⟨fun a h => hac a.1 h⟩
    exact Finite.wellFounded_of_trans_of_irrefl _
  have main : ∀ t : {x // x ∈ g.univFinset}, t.1 ∈ g.keys →
      ∃ r ∈ g.collectRoots, g.Reach r t.1 := by
    intro t
    induction t using WellFounded.induction hwfR with
    | _ t ih =>
      intro hk
      by_cases hroot : g.graphOrder.get t.1 = []
      · exact ⟨t.1, (g.mem_collectRoots_iff t.1).mpr ⟨hk, hroot⟩,
          Relation.ReflTransGen.refl⟩
      · obtain ⟨d, hd⟩ := List.exists_mem_of_ne_nil _ hroot
        have hstep : g.step d t.1 := (hwf.transpose t.1 d).mpr hd
        have hdk : d ∈ g.keys := (hwf.edge_keys hstep).1
        obtain ⟨r, hr, hre⟩ :=
          ih ⟨d, g.keys_subset_univ hdk⟩ (Relation.TransGen.single hstep) hdk
        exact ⟨r, hr, hre.tail hstep⟩
  intro n hn
  exact main ⟨n, g.keys_subset_univ hn⟩ hn

theorem Graph.reach_mem_keys {α : Type} {g : Graph α} (hwf : WellFormed g)
    {r x : String} (hr : r ∈ g.keys) (h : g.Reach r x) : x ∈ g.keys := by
  induction h with
  | refl => exact hr
  | tail _ hstep ih => exact (hwf.edge_keys hstep).2

/-- A topologically sorted list is closed under prerequisite edges. -/
theorem OrderTopo.closed {α : Type} {g : Graph α} {o : List String}
    (h : OrderTopo g o) {a b : String} (ha : a ∈ o) (hs : g.step a b) : b ∈ o := by
  obtain ⟨pre, post, hdec⟩ := List.append_of_mem ha
  have := h pre a post hdec b hs
  rw [hdec]
  exact List.mem_append.mpr (Or.inl this)

theorem OrderTopo.reach_closed {α : Type} {g : Graph α} {o : List String}
    (h : OrderTopo g o) {a b : String} (ha : a ∈ o) (hre : g.Reach a b) :
    b ∈ o := by
  induction hre with
  | refl => exact ha
  | tail _ hstep ih => exact h.closed ih hstep

theorem indexOf_append_left {γ : Type} [DecidableEq γ] {l1 l2 : List γ} {b : γ} (h : b ∈ l1) :
    (l1 ++ l2).indexOf b = l1.indexOf b := by
  induction l1 with
  | nil => simp at h
  | cons a t ih =>
    rcases eq_or_ne b a with hb | hb
    · subst hb
      simp [List.indexOf_cons_self]
    · rw [List.cons_append, List.indexOf_cons_ne _ (fun hc => hb hc.symm),
        List.indexOf_cons_ne _ (fun hc => hb hc.symm),
        ih (List.mem_of_ne_of_mem hb h)]

theorem indexOf_append_right {γ : Type} [DecidableEq γ] {l1 l2 : List γ} {b : γ} (h : b ∉ l1) :
    (l1 ++ l2).indexOf b = l1.length + l2.indexOf b := by
  induction l1 with
  | nil => simp
  | cons a t ih =>
    have hb : b ≠ a := fun hc => h (hc ▸ List.mem_cons_self _ _)
    rw [List.cons_append, List.indexOf_cons_ne _ (fun hc => hb hc.symm),
      ih (fun hc => h (List.mem_cons_of_mem _ hc)), List.length_cons]
    omega

theorem indexOf_lt_length_of_mem {γ : Type} [DecidableEq γ] {l : List γ} {b : γ} (h : b ∈ l) :
    l.indexOf b < l.length := by
  induction l with
  | nil => simp at h
  | cons a t ih =>
    rcases eq_or_ne b a with hb | hb
    · subst hb
      simp [List.indexOf_cons_self]
    · rw [List.indexOf_cons_ne _ (fun hc => hb hc.symm), List.length_cons]
      have := ih (List.mem_of_ne_of_mem hb h)
      omega

/-- In a duplicate-free topologically sorted list, a prerequisite edge
strictly decreases the position. -/
theorem OrderTopo.step_lt {α : Type} {g : Graph α} {o : List String}
    (h : OrderTopo g o) (hnd : o.Nodup) {a b : String} (ha : a ∈ o)
    (hs : g.step a b) : b ∈ o ∧ o.indexOf b < o.indexOf a := by
  obtain ⟨pre, post, hdec⟩ := List.append_of_mem ha
  have hb : b ∈ pre := h pre a post hdec b hs
  have hnapre : a ∉ pre := by
    rw [hdec] at hnd
    have := (List.nodup_append.mp hnd).2.2
    intro hc
    exact this hc (List.mem_cons_self _ _)
  constructor
  · rw [hdec]; exact List.mem_append.mpr (Or.inl hb)
  · rw [hdec, indexOf_append_left hb, indexOf_append_right hnapre]
    have := indexOf_lt_length_of_mem hb
    omega

theorem OrderTopo.transGen_lt {α : Type} {g : Graph α} {o : List String}
    (h : OrderTopo g o) (hnd : o.Nodup) {a b : String}
    (hre : Relation.TransGen g.step a b) (ha : a ∈ o) :
    b ∈ o ∧ o.indexOf b < o.indexOf a := by
  induction hre with
  | single hs => exact h.step_lt hnd ha hs
  | tail _ hs ih =>
    obtain ⟨h1, h2⟩ := ih
    obtain ⟨h3, h4⟩ := h.step_lt hnd h1 hs
    exact ⟨h3, lt_trans h4 h2⟩

/-- A duplicate-free topologically sorted list contains no node of a
prerequisite cycle. -/
theorem OrderTopo.no_cycle {α : Type} {g : Graph α} {o : List String}
    (h : OrderTopo g o) (hnd : o.Nodup) {m : String}
    (hm : m ∈ o) (hcyc : Relation.TransGen g.step m m) : False := by
  obtain ⟨-, hlt⟩ := h.transGen_lt hnd hcyc hm
  exact absurd hlt (lt_irrefl _)

theorem Graph.resolveLoop_nil {α : Type} (g : Graph α) (c : Bool) (s : SearchSt) :
    g.resolveLoop c [] s = .ok s := rfl

theorem Graph.resolveLoop_cons {α : Type} (g : Graph α) (c : Bool)
    (root : String) (rest : List String) (s : SearchSt) :
    g.resolveLoop c (root :: rest) s =
      (match g.dfsResolve c s root with
      | .error e => .error e
      | .ok s' => g.resolveLoop c rest s') := rfl

/-- The hypotheses threaded through the root loop of `Resolve`. -/
def LoopInv {α : Type} (g : Graph α) (roots : List String) (s : SearchSt) : Prop :=
  roots.Nodup ∧
  (∀ r ∈ roots, r ∈ g.keys ∧ g.graphOrder.get r = []) ∧
  GoodSt s ∧ OrderTopo g s.order ∧ s.path = [] ∧
  (∀ x ∈ s.visited, ∃ r₀, g.graphOrder.get r₀ = [] ∧ r₀ ∉ roots ∧ g.Reach r₀ x)

theorem getLast_cons_of_eq_nil {a : String} {l : List String} (h : l = []) :
    (a :: l).getLast (List.cons_ne_nil _ _) = a := by
  subst h
  rfl

/-- Stepping the loop once: the facts needed about `dfsResolve` on the next
root, packaged for both loop lemmas below. -/
theorem Graph.loop_head_unvisited {α : Type} {g : Graph α} (hwf : WellFormed g)
    {roots : List String} {root : String} {rest : List String} {s : SearchSt}
    (hr : roots = root :: rest) (hinv : LoopInv g roots s) :
    root ∉ s.visited ∧ root ∉ s.path := by
  obtain ⟨hnd, hroots, hg, ht, hpath, hvis⟩ := hinv
  subst hr
  constructor
  · intro hc
    obtain ⟨r₀, h1, h2, h3⟩ := hvis root hc
    have := g.reach_root_eq hwf (hroots root (List.mem_cons_self _ _)).2 h3
    subst this
    exact h2 (List.mem_cons_self _ _)
  · rw [hpath]
    exact List.not_mem_nil _

/-- If the root loop of an uncancelled `Resolve` returns successfully, the
final session is well-formed, its finished order is a topological sort,
all roots were visited, and the visited set is exactly the old one plus
everything reachable from the roots. -/
theorem Graph.resolveLoop_ok_facts {α : Type} {g : Graph α} (hwf : WellFormed g) :
    ∀ (roots : List String) (s : SearchSt) (s' : SearchSt),
      LoopInv g roots s → g.resolveLoop false roots s = .ok s' →
      GoodSt s' ∧ OrderTopo g s'.order ∧ s'.path = [] ∧
        (∀ x ∈ s.visited, x ∈ s'.visited) ∧
        (∀ r ∈ roots, r ∈ s'.visited) ∧
        (∀ x ∈ s'.visited, x ∈ s.visited ∨ ∃ r ∈ roots, g.Reach r x) := by
  intro roots
  induction roots with
  | nil =>
    intro s s' hinv hloop
    rw [Graph.resolveLoop_nil] at hloop
    injection hloop with hloop
    subst hloop
    obtain ⟨-, -, hg, ht, hpath, -⟩ := hinv
    exact ⟨hg, ht, hpath, fun x hx => hx, by simp, fun x hx => Or.inl hx⟩
  | cons root rest ih =>
    intro s s' hinv hloop
    obtain ⟨hunvis, hunpath⟩ := g.loop_head_unvisited hwf rfl hinv
    obtain ⟨hnd, hroots, hg, ht, hpath, hvis⟩ := hinv
    rw [Graph.resolveLoop_cons] at hloop
    have hspec := g.dfsResolve_spec false s root
    rcases hres : g.dfsResolve false s root with e | s1
    · rw [hres] at hloop
      exact absurd hloop (by simp)
    · rw [hres] at hloop hspec
      obtain ⟨G1, T1, -, hok⟩ :=
        (g.dfs_good_topo g.searchFuel).1 s root _ hspec hg hunvis hunpath ht
      obtain ⟨hpath1, horder1⟩ := hok s1 rfl
      have hG1 : GoodSt s1 := by simpa [DfsRes.st] using G1
      have hT1 : OrderTopo g s1.order := by simpa [DfsRes.st] using T1
      have hmono1 : ∀ x ∈ s.visited, x ∈ s1.visited := by
        intro x hx
        have := Graph.dfsResolveF_visited_mono hspec x hx
        simpa [DfsRes.st] using this
      have hbound1 : ∀ x ∈ s1.visited, x ∈ s.visited ∨ g.Reach root x := by
        intro x hx
        exact ((g.dfs_visited_facts false g.searchFuel).1 s root _ hspec).2 x
          (by simpa [DfsRes.st] using hx)
      have hrootv : root ∈ s1.visited :=
        (hG1.2.2.2.2.2.1 root).mpr (Or.inr horder1)
      have hinv1 : LoopInv g rest s1 := by
        refine ⟨(List.nodup_cons.mp hnd).2,
          fun r hr => hroots r (List.mem_cons_of_mem _ hr), hG1, hT1,
          by rw [hpath1, hpath], ?_⟩
        intro x hx
        rcases hbound1 x hx with h | h
        · obtain ⟨r₀, h1, h2, h3⟩ := hvis x h
          exact ⟨r₀, h1, fun hc => h2 (List.mem_cons_of_mem _ hc), h3⟩
        · exact ⟨root, (hroots root (List.mem_cons_self _ _)).2,
            (List.nodup_cons.mp hnd).1, h⟩
      obtain ⟨G', T', hpath', hmono', hroots', hbound'⟩ := ih s1 s' hinv1 hloop
      refine ⟨G', T', hpath', fun x hx => hmono' x (hmono1 x hx), ?_, ?_⟩
      · intro r hr
        rcases List.mem_cons.mp hr with h1 | h1
        · subst h1
          exact hmono' r hrootv
        · exact hroots' r h1
      · intro x hx
        rcases hbound' x hx with h | ⟨r, hr1, hr2⟩
        · rcases hbound1 x h with h1 | h1
          · exact Or.inl h1
          · exact Or.inr ⟨root, List.mem_cons_self _ _, h1⟩
        · exact Or.inr ⟨r, List.mem_cons_of_mem _ hr1, hr2⟩

/-- If the root loop of an uncancelled `Resolve` fails, the failure is
`cycleDetected`, the session at that moment still satisfies its
invariants, and a genuine prerequisite cycle is reachable from one of the
roots. -/
theorem Graph.resolveLoop_error_facts {α : Type} {g : Graph α}
    (hwf : WellFormed g) :
    ∀ (roots : List String) (s : SearchSt) (e : ResolveError) (serr : SearchSt),
      LoopInv g roots s → g.resolveLoop false roots s = .error (e, serr) →
      e = ResolveError.cycleDetected ∧ GoodSt serr ∧
        (∀ x ∈ s.visited, x ∈ serr.visited) ∧
        ∃ m, Relation.TransGen g.step m m ∧ ∃ r ∈ roots, g.Reach r m := by
  intro roots
  induction roots with
  | nil =>
    intro s e serr hinv hloop
    rw [Graph.resolveLoop_nil] at hloop
    exact absurd hloop (by simp)
  | cons root rest ih =>
    intro s e serr hinv hloop
    obtain ⟨hunvis, hunpath⟩ := g.loop_head_unvisited hwf rfl hinv
    obtain ⟨hnd, hroots, hg, ht, hpath, hvis⟩ := hinv
    rw [Graph.resolveLoop_cons] at hloop
    have hspec := g.dfsResolve_spec false s root
    rcases hres : g.dfsResolve false s root with epair | s1
    · obtain ⟨e', serr'⟩ := epair
      rw [hres] at hloop hspec
      injection hloop with hloop
      injection hloop with hl1 hl2
      obtain ⟨G1, -, -, -⟩ :=
        (g.dfs_good_topo g.searchFuel).1 s root _ hspec hg hunvis hunpath ht
      obtain ⟨hkind, m, hcyc, hre⟩ :=
        (g.dfs_cycle_of_error false g.searchFuel).1 s root (e', serr') hspec
          hunpath (by rw [hpath]; trivial)
      refine ⟨by rw [← hl1]; simpa using hkind,
        by rw [← hl2]; simpa [DfsRes.st] using G1, ?_, ?_⟩
      · intro x hx
        rw [← hl2]
        have := Graph.dfsResolveF_visited_mono hspec x hx
        simpa [DfsRes.st] using this
      · refine ⟨m, hcyc, root, List.mem_cons_self _ _, ?_⟩
        rw [getLast_cons_of_eq_nil hpath] at hre
        exact hre
    · rw [hres] at hloop hspec
      obtain ⟨G1, T1, -, hok⟩ :=
        (g.dfs_good_topo g.searchFuel).1 s root _ hspec hg hunvis hunpath ht
      obtain ⟨hpath1, horder1⟩ := hok s1 rfl
      have hG1 : GoodSt s1 := by simpa [DfsRes.st] using G1
      have hT1 : OrderTopo g s1.order := by simpa [DfsRes.st] using T1
      have hmono1 : ∀ x ∈ s.visited, x ∈ s1.visited := by
        intro x hx
        have := Graph.dfsResolveF_visited_mono hspec x hx
        simpa [DfsRes.st] using this
      have hbound1 : ∀ x ∈ s1.visited, x ∈ s.visited ∨ g.Reach root x := by
        intro x hx
        exact ((g.dfs_visited_facts false g.searchFuel).1 s root _ hspec).2 x
          (by simpa [DfsRes.st] using hx)
      have hinv1 : LoopInv g rest s1 := by
        refine ⟨(List.nodup_cons.mp hnd).2,
          fun r hr => hroots r (List.mem_cons_of_mem _ hr), hG1, hT1,
          by rw [hpath1, hpath], ?_⟩
        intro x hx
        rcases hbound1 x hx with h | h
        · obtain ⟨r₀, h1, h2, h3⟩ := hvis x h
          exact ⟨r₀, h1, fun hc => h2 (List.mem_cons_of_mem _ hc), h3⟩
        · exact ⟨root, (hroots root (List.mem_cons_self _ _)).2,
            (List.nodup_cons.mp hnd).1, h⟩
      obtain ⟨hkind, G', hmono', m, hcyc, r, hr1, hr2⟩ :=
        ih s1 e serr hinv1 hloop
      exact ⟨hkind, G', fun x hx => hmono' x (hmono1 x hx), m, hcyc, r,
        List.mem_cons_of_mem _ hr1, hr2⟩

/-- With the context already done, the root loop visits exactly the roots:
one task each, no recursion, no error. -/
theorem Graph.resolveLoop_true_facts {α : Type} {g : Graph α}
    (hwf : WellFormed g) :
    ∀ (roots : List String) (s : SearchSt),
      (∀ r ∈ roots, g.graphOrder.get r = []) → s.path = [] →
      ∃ s', g.resolveLoop true roots s = .ok s' ∧ s'.path = [] ∧
        s'.sched = s.sched ++ roots ∧ s'.order = s.order ++ roots ∧
        (∀ x, x ∈ s'.visited ↔ x ∈ s.visited ∨ x ∈ roots) := by
  intro roots
  induction roots with
  | nil =>
    intro s _ hpath
    exact ⟨s, rfl, hpath, by simp, by simp, by simp⟩
  | cons root rest ih =>
    intro s hroots hpath
    have hnp : root ∉ s.path := by rw [hpath]; exact List.not_mem_nil _
    have hchna : ∀ ch ∈ g.treeOrder.get root, ch ∉ root :: s.path := by
      intro ch hch hc
      rcases List.mem_cons.mp hc with h1 | h1
      · rw [h1] at hch
        have := (hwf.transpose root root).mp hch
        rw [hroots root (List.mem_cons_self _ _)] at this
        exact absurd this (List.not_mem_nil _)
      · rw [hpath] at h1
        exact absurd h1 (List.not_mem_nil _)
    have hres : g.dfsResolve true s root =
        .ok ⟨s.visited.Add root, s.path, s.sched ++ [root], s.order ++ [root]⟩ := by
      show (g.dfsResolveF true g.searchFuel s root).getD _ = _
      rw [show g.searchFuel = g.univFinset.card + 1 from rfl,
        g.dfsResolveF_true g.univFinset.card s root hnp hchna]
      rfl
    obtain ⟨s', hloop, hpath', hsched', horder', hvis'⟩ :=
      ih ⟨s.visited.Add root, s.path, s.sched ++ [root], s.order ++ [root]⟩
        (fun r hr => hroots r (List.mem_cons_of_mem _ hr)) hpath
    refine ⟨s', ?_, hpath', ?_, ?_, ?_⟩
    · rw [Graph.resolveLoop_cons, hres]
      exact hloop
    · rw [hsched']
      simp
    · rw [horder']
      simp
    · intro x
      rw [hvis' x]
      show x ∈ (s.visited.Add root) ∨ _ ↔ _
      rw [StringSet.mem_Add]
      simp only [List.mem_cons]
      tauto

/-- A graph with registered actions but no roots fails immediately. -/
theorem Graph.Resolve_noRoots_out {α : Type} (g : Graph α) (b : Bool)
    (h : g.collectRoots = []) :
    g.Resolve b = ⟨some .noRoots, ⟨[], [], [], []⟩, true⟩ := by
  unfold Graph.Resolve
  rw [if_pos (by rw [h]; rfl)]

theorem GoodSt_empty : GoodSt ⟨[], [], [], []⟩ := by
  refine ⟨?_, ?_, ?_, ?_, ?_, ?_, ?_⟩ <;> simp

theorem Graph.LoopInv_start {α : Type} {g : Graph α} (hwf : WellFormed g) :
    LoopInv g g.collectRoots ⟨[], [], [], []⟩ := by
  refine ⟨g.collectRoots_nodup hwf, ?_, GoodSt_empty, OrderTopo.nil g, rfl, ?_⟩
  · intro r hr
    exact (g.mem_collectRoots_iff r).mp hr
  · intro x hx
    exact absurd hx (List.not_mem_nil _)

/-- On a well-formed acyclic graph with at least one action, `Resolve`
succeeds, is not cancelled at return, and schedules exactly the registered
actions, once each, in an order whose ghost postorder is topologically
sorted. -/
theorem Graph.Resolve_acyclic_facts {α : Type} {g : Graph α}
    (hwf : WellFormed g) (hac : g.Acyclic) (hne : g.actions ≠ []) :
    (g.Resolve false).err = none ∧
    (g.Resolve false).cancelledAtReturn = false ∧
    (g.Resolve false).finalSt.sched.Nodup ∧
    (g.Resolve false).finalSt.order.Nodup ∧
    OrderTopo g (g.Resolve false).finalSt.order ∧
    (∀ x, x ∈ (g.Resolve false).finalSt.sched ↔ x ∈ g.keys) ∧
    (∀ x, x ∈ (g.Resolve false).finalSt.order ↔ x ∈ g.keys) := by
  have hkeysne : g.keys ≠ [] := by
    unfold Graph.keys
    simpa using hne
  obtain ⟨n0, hn0⟩ := List.exists_mem_of_ne_nil _ hkeysne
  obtain ⟨r0, hr0, -⟩ := Graph.reach_from_root hwf hac n0 hn0
  have hrne : ¬ g.collectRoots.isEmpty := by
    cases hcr : g.collectRoots
    · rw [hcr] at hr0; exact absurd hr0 (List.not_mem_nil _)
    · simp [hcr]
  unfold Graph.Resolve
  rw [if_neg hrne]
  rcases hloop : g.resolveLoop false g.collectRoots ⟨[], [], [], []⟩ with epair | s'
  · obtain ⟨e, serr⟩ := epair
    obtain ⟨-, -, -, m, hcyc, -⟩ :=
      g.resolveLoop_error_facts hwf _ _ _ _ (g.LoopInv_start hwf) hloop
    exact absurd hcyc (hac m)
  · obtain ⟨G', T', hpath', -, hroots', hbound'⟩ :=
      g.resolveLoop_ok_facts hwf _ _ _ (g.LoopInv_start hwf) hloop
    obtain ⟨g1, g2, -, -, g5, g6, -⟩ := G'
    have hvisord : ∀ x, x ∈ s'.visited ↔ x ∈ s'.order := by
      intro x
      rw [g6 x, hpath']
      simp
    have hviskeys : ∀ x, x ∈ s'.visited ↔ x ∈ g.keys := by
      intro x
      constructor
      · intro hx
        rcases hbound' x hx with h | ⟨r, hr, hre⟩
        · exact absurd h (List.not_mem_nil _)
        · exact Graph.reach_mem_keys hwf ((g.mem_collectRoots_iff r).mp hr).1 hre
      · intro hx
        obtain ⟨r, hr, hre⟩ := Graph.reach_from_root hwf hac x hx
        have : r ∈ s'.order := (hvisord r).mp (hroots' r hr)
        exact (hvisord x).mpr (T'.reach_closed this hre)
    refine ⟨rfl, rfl, g2, g5, T', ?_, ?_⟩
    · intro x
      rw [g1 x]
      exact hviskeys x
    · intro x
      rw [← hvisord x]
      exact hviskeys x

/-- `Resolve` on a well-formed graph reports `cycleDetected` exactly when a
node reachable from some root lies on a prerequisite cycle. -/
theorem Graph.Resolve_cycle_iff {α : Type} {g : Graph α} (hwf : WellFormed g) :
    (g.Resolve false).err = some ResolveError.cycleDetected ↔
      g.HasReachableCycle := by
  constructor
  · intro herr
    by_cases hrne : g.collectRoots.isEmpty
    · rw [Graph.Resolve_noRoots_out g false (by simpa using hrne)] at herr
      exact absurd herr (by simp)
    · unfold Graph.Resolve at herr
      rw [if_neg hrne] at herr
      rcases hloop : g.resolveLoop false g.collectRoots ⟨[], [], [], []⟩
        with epair | s'
      · obtain ⟨e, serr⟩ := epair
        obtain ⟨-, -, -, m, hcyc, r, hr, hre⟩ :=
          g.resolveLoop_error_facts hwf _ _ _ _ (g.LoopInv_start hwf) hloop
        exact ⟨r, hr, m, hre, hcyc⟩
      · rw [hloop] at herr
        exact absurd herr (by simp)
  · intro ⟨r, hr, m, hre, hcyc⟩
    have hrne : ¬ g.collectRoots.isEmpty := by
      cases hcr : g.collectRoots
      · rw [hcr] at hr; exact absurd hr (List.not_mem_nil _)
      · simp [hcr]
    unfold Graph.Resolve
    rw [if_neg hrne]
    rcases hloop : g.resolveLoop false g.collectRoots ⟨[], [], [], []⟩
      with epair | s'
    · obtain ⟨e, serr⟩ := epair
      obtain ⟨hkind, -, -, -⟩ :=
        g.resolveLoop_error_facts hwf _ _ _ _ (g.LoopInv_start hwf) hloop
      rw [hkind]
    · exfalso
      obtain ⟨G', T', hpath', -, hroots', -⟩ :=
        g.resolveLoop_ok_facts hwf _ _ _ (g.LoopInv_start hwf) hloop
      obtain ⟨-, -, -, -, g5, g6, -⟩ := G'
      have hvisord : ∀ x, x ∈ s'.visited ↔ x ∈ s'.order := by
        intro x
        rw [g6 x, hpath']
        simp
      have hrord : r ∈ s'.order := (hvisord r).mp (hroots' r hr)
      exact T'.no_cycle g5 (T'.reach_closed hrord hre) hcyc

/-- `Resolve` on a pre-done context: no error, the derived context is done
at return, and exactly one task per root is spawned (none for any other
node). -/
theorem Graph.Resolve_preDone_facts {α : Type} {g : Graph α}
    (hwf : WellFormed g) (hroots : g.collectRoots ≠ []) :
    (g.Resolve true).err = none ∧
    (g.Resolve true).cancelledAtReturn = true ∧
    (g.Resolve true).finalSt.sched = g.collectRoots := by
  have hrne : ¬ g.collectRoots.isEmpty := by
    cases hcr : g.collectRoots
    · exact absurd hcr hroots
    · simp [hcr]
  obtain ⟨s', hloop, -, hsched', -, -⟩ :=
    g.resolveLoop_true_facts hwf g.collectRoots ⟨[], [], [], []⟩
      (fun r hr => ((g.mem_collectRoots_iff r).mp hr).2) rfl
  unfold Graph.Resolve
  rw [if_neg hrne, hloop]
  exact ⟨rfl, rfl, by rw [hsched']; simp⟩

/-! ## Trace model of the concurrent task protocol (Graph.visit)

Each task spawned by `visit` for node `n` runs:
`Enter(n)`; wait on the construction barrier `dfsWait` (released when
`Resolve` returns); check `searchContextDone()`; if not done, wait on the
countdown latch (initialised to `len(g.treeOrder[n])` and decremented once
by each completing task `q` with `n ∈ g.graphOrder[q]`); re-check the
context; if still live run the action between `Start(n)` and `Finish(n)`;
finally `Exit(n)` (wg.Done and the latch decrements, via deferred
`visitComplete`).  The derived context becomes done (`ctxDoneEv`) when
`done()` is called: before `Resolve` returns on its error paths, when the
input context was already done, or by the watcher goroutine once every
task has finished.

A complete execution is a trace of these events; `ValidTrace` collects the
ordering facts the synchronization objects enforce on any interleaving.
Safety claims are proved for every valid trace; liveness claims exhibit a
valid trace. -/

inductive Ev where
  | enterEv (n : String)
  | checkEv (n : String)
  | startEv (n : String)
  | finishEv (n : String)
  | exitEv (n : String)
  | resolveRetEv
  | ctxDoneEv
deriving DecidableEq, Repr

/-- Position of the (unique) occurrence of an event in a trace. -/
def evIdx (tr : List Ev) (e : Ev) : Nat := tr.indexOf e

/-- The ordering facts every interleaving of the spawned tasks satisfies,
given the set `sched` of spawned tasks.  A trace is complete: every task
reached `Exit`, and the derived context eventually became done. -/
structure ValidTrace {α : Type} (g : Graph α) (sched : List String)
    (tr : List Ev) : Prop where
  count_enter : ∀ n, tr.count (Ev.enterEv n) = if n ∈ sched then 1 else 0
  count_check : ∀ n, tr.count (Ev.checkEv n) = if n ∈ sched then 1 else 0
  count_exit : ∀ n, tr.count (Ev.exitEv n) = if n ∈ sched then 1 else 0
  count_start_le : ∀ n, tr.count (Ev.startEv n) ≤ 1
  count_finish_eq : ∀ n, tr.count (Ev.finishEv n) = tr.count (Ev.startEv n)
  start_sched : ∀ n, Ev.startEv n ∈ tr → n ∈ sched
  count_ret : tr.count Ev.resolveRetEv = 1
  count_done : tr.count Ev.ctxDoneEv = 1
  enter_before_check : ∀ n ∈ sched,
    evIdx tr (Ev.enterEv n) < evIdx tr (Ev.checkEv n)
  ret_before_check : ∀ n ∈ sched,
    evIdx tr Ev.resolveRetEv < evIdx tr (Ev.checkEv n)
  check_before_exit : ∀ n ∈ sched,
    evIdx tr (Ev.checkEv n) < evIdx tr (Ev.exitEv n)
  check_pass : ∀ n, Ev.startEv n ∈ tr →
    evIdx tr (Ev.checkEv n) < evIdx tr Ev.ctxDoneEv
  check_before_start : ∀ n, Ev.startEv n ∈ tr →
    evIdx tr (Ev.checkEv n) < evIdx tr (Ev.startEv n)
  start_before_finish : ∀ n, Ev.startEv n ∈ tr →
    evIdx tr (Ev.startEv n) < evIdx tr (Ev.finishEv n)
  finish_before_exit : ∀ n, Ev.startEv n ∈ tr →
    evIdx tr (Ev.finishEv n) < evIdx tr (Ev.exitEv n)
  latch : ∀ n, Ev.startEv n ∈ tr →
    (sched.filter (fun q => decide (n ∈ g.graphOrder.get q ∧
      evIdx tr (Ev.exitEv q) < evIdx tr (Ev.startEv n)))).length ≥
      (g.treeOrder.get n).length
  skip_done : ∀ n ∈ sched, Ev.startEv n ∉ tr →
    evIdx tr Ev.ctxDoneEv < evIdx tr (Ev.exitEv n)

/-- The derived context was done before `Resolve` returned: the error
paths call `done()` before returning, and a pre-done input context makes
the derived context done from the start.  Mirrors
`ResolveOut.cancelledAtReturn = true`. -/
def CtxPreDone (tr : List Ev) : Prop :=
  evIdx tr Ev.ctxDoneEv < evIdx tr Ev.resolveRetEv

/-- Nothing cancels the session from outside: the derived context becomes
done only through the watcher goroutine, after every task has finished.
Mirrors a successful `Resolve` whose input context is never cancelled. -/
def CtxInternalDone (sched : List String) (tr : List Ev) : Prop :=
  ∀ n ∈ sched, evIdx tr (Ev.exitEv n) < evIdx tr Ev.ctxDoneEv

/-- When the derived context is done before `Resolve` returns, no task
runs its action: every task is parked on the construction barrier until
`Resolve` returns, and its first context check then sees a done context. -/
theorem ValidTrace.no_start_of_preDone {α : Type} {g : Graph α}
    {sched : List String} {tr : List Ev} (hv : ValidTrace g sched tr)
    (hpre : CtxPreDone tr) : ∀ n, Ev.startEv n ∉ tr := by
  intro n hn
  have h1 := hv.ret_before_check n (hv.start_sched n hn)
  have h2 := hv.check_pass n hn
  unfold CtxPreDone at hpre
  omega

/-- In an externally uncancelled resolution, every scheduled task runs its
action exactly once, and finishes it before the resolution signal
completes. -/
theorem ValidTrace.runs_all_of_internal {α : Type} {g : Graph α}
    {sched : List String} {tr : List Ev} (hv : ValidTrace g sched tr)
    (hint : CtxInternalDone sched tr) :
    ∀ n ∈ sched, tr.count (Ev.startEv n) = 1 ∧ tr.count (Ev.finishEv n) = 1 ∧
      evIdx tr (Ev.finishEv n) < evIdx tr Ev.ctxDoneEv := by
  intro n hn
  have hstart : Ev.startEv n ∈ tr := by
    by_contra hc
    have h1 := hv.skip_done n hn hc
    have h2 := hint n hn
    omega
  have hcount : tr.count (Ev.startEv n) = 1 := by
    have h1 := hv.count_start_le n
    have h2 : 0 < tr.count (Ev.startEv n) := List.count_pos_iff.mpr hstart
    omega
  refine ⟨hcount, by rw [hv.count_finish_eq n, hcount], ?_⟩
  have h1 := hv.finish_before_exit n hstart
  have h2 := hint n hn
  omega

/-- The per-node synchronization protocol orders dependent actions after
their prerequisites: if `p` is a prerequisite of `d` and both actions ran,
`d`'s action started strictly after `p`'s action returned — `d`'s latch
reaches zero only once every prerequisite's task, `p`'s included, has
passed its completion step, which follows its `Finish`. -/
theorem ValidTrace.prereq_finish_before_start {α : Type} {g : Graph α}
    {sched : List String} {tr : List Ev} (hv : ValidTrace g sched tr)
    (hwf : WellFormed g) (hnd : sched.Nodup) {p d : String}
    (hedge : p ∈ g.treeOrder.get d)
    (hp : Ev.startEv p ∈ tr) (hd : Ev.startEv d ∈ tr) :
    evIdx tr (Ev.finishEv p) < evIdx tr (Ev.startEv d) := by
  classical
  set P := sched.filter (fun q => decide (d ∈ g.graphOrder.get q ∧
    evIdx tr (Ev.exitEv q) < evIdx tr (Ev.startEv d))) with hP
  have hlen : P.length ≥ (g.treeOrder.get d).length := hv.latch d hd
  have hPsub : ∀ q ∈ P, q ∈ g.treeOrder.get d ∧
      evIdx tr (Ev.exitEv q) < evIdx tr (Ev.startEv d) := by
    intro q hq
    rw [hP, List.mem_filter] at hq
    have := of_decide_eq_true hq.2
    exact ⟨(hwf.transpose q d).mpr this.1, this.2⟩
  have hPnd : P.Nodup := List.Nodup.filter _ hnd
  have htnd : (g.treeOrder.get d).Nodup := hwf.get_tree_nodup d
  have hsub : P.toFinset ⊆ (g.treeOrder.get d).toFinset := by
    intro q hq
    rw [List.mem_toFinset] at hq ⊢
    exact (hPsub q hq).1
  have hcards : (g.treeOrder.get d).toFinset.card ≤ P.toFinset.card := by
    rw [List.toFinset_card_of_nodup hPnd, List.toFinset_card_of_nodup htnd]
    omega
  have heq : P.toFinset = (g.treeOrder.get d).toFinset :=
    Finset.eq_of_subset_of_card_le hsub hcards
  have hpP : p ∈ P := by
    rw [← List.mem_toFinset, heq, List.mem_toFinset]
    exact hedge
  have h1 := (hPsub p hpP).2
  have h2 := hv.finish_before_exit p hp
  omega

/-! Canonical complete traces, used to show completed executions exist. -/

/-- The events of a task that runs its action, in program order. -/
def evBlockRun (n : String) : List Ev :=
  [Ev.enterEv n, Ev.checkEv n, Ev.startEv n, Ev.finishEv n, Ev.exitEv n]

/-- The events of a task that skips its action after seeing a done
context. -/
def evBlockSkip (n : String) : List Ev :=
  [Ev.enterEv n, Ev.checkEv n, Ev.exitEv n]

/-- The sequential trace of a successful uncancelled resolution: tasks run
one after another in the topological postorder; the watcher then marks the
derived context done. -/
def runTrace (order : List String) : List Ev :=
  Ev.resolveRetEv :: (order.flatMap evBlockRun ++ [Ev.ctxDoneEv])

/-- The sequential trace of a resolution whose context was done before
`Resolve` returned: every task skips its action. -/
def skipTrace (sched : List String) : List Ev :=
  Ev.ctxDoneEv :: Ev.resolveRetEv :: sched.flatMap evBlockSkip

theorem count_flatMap (f : String → List Ev) (l : List String) (e : Ev) :
    (l.flatMap f).count e = (l.map fun m => (f m).count e).sum := by
  induction l with
  | nil => simp
  | cons a t ih => simp [List.count_append, ih]

theorem sum_if_single {l : List String} {n : String} (hl : l.Nodup) (c : Nat) :
    (l.map fun m => if n = m then c else 0).sum = if n ∈ l then c else 0 := by
  induction l with
  | nil => simp
  | cons a t ih =>
    obtain ⟨ha, ht⟩ := List.nodup_cons.mp hl
    rcases eq_or_ne n a with h | h
    · subst h
      simp [ha, ih ht]
    · simp only [List.map_cons, List.sum_cons, if_neg h, ih ht, List.mem_cons]
      simp [h]

theorem length_flatMap_run (l : List String) :
    (l.flatMap evBlockRun).length = 5 * l.length := by
  induction l with
  | nil => simp
  | cons a t ih => simp [evBlockRun, ih]; omega

theorem length_flatMap_skip (l : List String) :
    (l.flatMap evBlockSkip).length = 3 * l.length := by
  induction l with
  | nil => simp
  | cons a t ih => simp [evBlockSkip, ih]; omega

theorem run_count_enter (m n : String) :
    (evBlockRun m).count (Ev.enterEv n) = if n = m then 1 else 0 := by
  rcases eq_or_ne n m with h | h
  · subst h; simp [evBlockRun]
  · simp [evBlockRun, h]

theorem run_count_check (m n : String) :
    (evBlockRun m).count (Ev.checkEv n) = if n = m then 1 else 0 := by
  rcases eq_or_ne n m with h | h
  · subst h; simp [evBlockRun]
  · simp [evBlockRun, h]

theorem run_count_start (m n : String) :
    (evBlockRun m).count (Ev.startEv n) = if n = m then 1 else 0 := by
  rcases eq_or_ne n m with h | h
  · subst h; simp [evBlockRun]
  · simp [evBlockRun, h]

theorem run_count_finish (m n : String) :
    (evBlockRun m).count (Ev.finishEv n) = if n = m then 1 else 0 := by
  rcases eq_or_ne n m with h | h
  · subst h; simp [evBlockRun]
  · simp [evBlockRun, h]

theorem run_count_exit (m n : String) :
    (evBlockRun m).count (Ev.exitEv n) = if n = m then 1 else 0 := by
  rcases eq_or_ne n m with h | h
  · subst h; simp [evBlockRun]
  · simp [evBlockRun, h]

theorem run_count_ret (m : String) : (evBlockRun m).count Ev.resolveRetEv = 0 := by
  simp [evBlockRun]

theorem run_count_done (m : String) : (evBlockRun m).count Ev.ctxDoneEv = 0 := by
  simp [evBlockRun]

theorem skip_count_enter (m n : String) :
    (evBlockSkip m).count (Ev.enterEv n) = if n = m then 1 else 0 := by
  rcases eq_or_ne n m with h | h
  · subst h; simp [evBlockSkip]
  · simp [evBlockSkip, h]

theorem skip_count_check (m n : String) :
    (evBlockSkip m).count (Ev.checkEv n) = if n = m then 1 else 0 := by
  rcases eq_or_ne n m with h | h
  · subst h; simp [evBlockSkip]
  · simp [evBlockSkip, h]

theorem skip_count_exit (m n : String) :
    (evBlockSkip m).count (Ev.exitEv n) = if n = m then 1 else 0 := by
  rcases eq_or_ne n m with h | h
  · subst h; simp [evBlockSkip]
  · simp [evBlockSkip, h]

theorem skip_count_start (m n : String) :
    (evBlockSkip m).count (Ev.startEv n) = 0 := by
  simp [evBlockSkip]

theorem skip_count_finish (m n : String) :
    (evBlockSkip m).count (Ev.finishEv n) = 0 := by
  simp [evBlockSkip]

theorem skip_count_ret (m : String) : (evBlockSkip m).count Ev.resolveRetEv = 0 := by
  simp [evBlockSkip]

theorem skip_count_done (m : String) : (evBlockSkip m).count Ev.ctxDoneEv = 0 := by
  simp [evBlockSkip]

/-- Counting a per-node event across the run blocks of a duplicate-free
node list. -/
theorem count_flatMap_run_single {l : List String} (hl : l.Nodup)
    (τ : String → Ev) (n : String)
    (hτ : ∀ m, (evBlockRun m).count (τ n) = if n = m then 1 else 0) :
    (l.flatMap evBlockRun).count (τ n) = if n ∈ l then 1 else 0 := by
  rw [count_flatMap]
  have : (l.map fun m => (evBlockRun m).count (τ n)) =
      (l.map fun m => if n = m then 1 else 0) := by
    exact List.map_congr_left (fun m _ => hτ m)
  rw [this, sum_if_single hl 1]

theorem count_flatMap_skip_single {l : List String} (hl : l.Nodup)
    (τ : String → Ev) (n : String)
    (hτ : ∀ m, (evBlockSkip m).count (τ n) = if n = m then 1 else 0) :
    (l.flatMap evBlockSkip).count (τ n) = if n ∈ l then 1 else 0 := by
  rw [count_flatMap]
  have : (l.map fun m => (evBlockSkip m).count (τ n)) =
      (l.map fun m => if n = m then 1 else 0) := by
    exact List.map_congr_left (fun m _ => hτ m)
  rw [this, sum_if_single hl 1]

theorem count_flatMap_zero (f : String → List Ev) {l : List String} {e : Ev}
    (h : ∀ m, (f m).count e = 0) : (l.flatMap f).count e = 0 := by
  rw [count_flatMap]
  have : (l.map fun m => (f m).count e) = l.map fun _ => 0 :=
    List.map_congr_left (fun m _ => h m)
  rw [this]
  simp

theorem not_mem_of_count_zero {l : List Ev} {e : Ev} (h : l.count e = 0) :
    e ∉ l := by
  intro hc
  have := List.count_pos_iff.mpr hc
  omega

theorem run_idx_enter (n : String) : (evBlockRun n).indexOf (Ev.enterEv n) = 0 := by
  simp [evBlockRun]

theorem run_idx_check (n : String) : (evBlockRun n).indexOf (Ev.checkEv n) = 1 := by
  simp [evBlockRun, List.indexOf_cons]

theorem run_idx_start (n : String) : (evBlockRun n).indexOf (Ev.startEv n) = 2 := by
  simp [evBlockRun, List.indexOf_cons]

theorem run_idx_finish (n : String) : (evBlockRun n).indexOf (Ev.finishEv n) = 3 := by
  simp [evBlockRun, List.indexOf_cons]

theorem run_idx_exit (n : String) : (evBlockRun n).indexOf (Ev.exitEv n) = 4 := by
  simp [evBlockRun, List.indexOf_cons]

theorem skip_idx_enter (n : String) : (evBlockSkip n).indexOf (Ev.enterEv n) = 0 := by
  simp [evBlockSkip]

theorem skip_idx_check (n : String) : (evBlockSkip n).indexOf (Ev.checkEv n) = 1 := by
  simp [evBlockSkip, List.indexOf_cons]

theorem skip_idx_exit (n : String) : (evBlockSkip n).indexOf (Ev.exitEv n) = 2 := by
  simp [evBlockSkip, List.indexOf_cons]

/-- Position of a per-node event of `n` in the canonical run trace, when
`n` sits after the prefix `pre` of the postorder. -/
theorem runTrace_idx_block {order pre post : List String} {n : String}
    (hdec : order = pre ++ n :: post) (hnpre : n ∉ pre) {e : Ev}
    (hblock : ∀ m, e ∈ evBlockRun m ↔ n = m) (hret : Ev.resolveRetEv ≠ e) :
    evIdx (runTrace order) e = 1 + 5 * pre.length + (evBlockRun n).indexOf e := by
  unfold runTrace evIdx
  rw [List.indexOf_cons_ne _ hret]
  have h1 : order.flatMap evBlockRun ++ [Ev.ctxDoneEv] =
      pre.flatMap evBlockRun ++
        (evBlockRun n ++ (post.flatMap evBlockRun ++ [Ev.ctxDoneEv])) := by
    rw [hdec]
    simp
  rw [h1, indexOf_append_right, indexOf_append_left ((hblock n).mpr rfl)]
  · rw [length_flatMap_run]
    omega
  · intro hc
    rw [List.mem_flatMap] at hc
    obtain ⟨m, hm, hem⟩ := hc
    exact hnpre (((hblock m).mp hem) ▸ hm)

theorem runTrace_idx_ret (order : List String) :
    evIdx (runTrace order) Ev.resolveRetEv = 0 := by
  unfold runTrace evIdx
  exact List.indexOf_cons_self _ _

theorem runTrace_idx_done (order : List String) :
    evIdx (runTrace order) Ev.ctxDoneEv = 1 + 5 * order.length := by
  unfold runTrace evIdx
  rw [List.indexOf_cons_ne _ (by simp)]
  rw [indexOf_append_right, List.indexOf_cons_self]
  · rw [length_flatMap_run]
    omega
  · intro hc
    rw [List.mem_flatMap] at hc
    obtain ⟨m, -, hem⟩ := hc
    simp [evBlockRun] at hem

/-- Position of a per-node event of `n` in the canonical skip trace. -/
theorem skipTrace_idx_block {sched pre post : List String} {n : String}
    (hdec : sched = pre ++ n :: post) (hnpre : n ∉ pre) {e : Ev}
    (hblock : ∀ m, e ∈ evBlockSkip m ↔ n = m) (hret : Ev.resolveRetEv ≠ e)
    (hdone : Ev.ctxDoneEv ≠ e) :
    evIdx (skipTrace sched) e = 2 + 3 * pre.length + (evBlockSkip n).indexOf e := by
  unfold skipTrace evIdx
  rw [List.indexOf_cons_ne _ hdone, List.indexOf_cons_ne _ hret]
  have h1 : sched.flatMap evBlockSkip =
      pre.flatMap evBlockSkip ++ (evBlockSkip n ++ post.flatMap evBlockSkip) := by
    rw [hdec]
    simp
  rw [h1, indexOf_append_right, indexOf_append_left ((hblock n).mpr rfl)]
  · rw [length_flatMap_skip]
    omega
  · intro hc
    rw [List.mem_flatMap] at hc
    obtain ⟨m, hm, hem⟩ := hc
    exact hnpre (((hblock m).mp hem) ▸ hm)

theorem skipTrace_idx_done (sched : List String) :
    evIdx (skipTrace sched) Ev.ctxDoneEv = 0 := by
  unfold skipTrace evIdx
  exact List.indexOf_cons_self _ _

theorem skipTrace_idx_ret (sched : List String) :
    evIdx (skipTrace sched) Ev.resolveRetEv = 1 := by
  unfold skipTrace evIdx
  rw [List.indexOf_cons_ne _ (by simp), List.indexOf_cons_self]

theorem mem_run_enter (m n : String) : Ev.enterEv n ∈ evBlockRun m ↔ n = m := by
  simp [evBlockRun]

theorem mem_run_check (m n : String) : Ev.checkEv n ∈ evBlockRun m ↔ n = m := by
  simp [evBlockRun]

theorem mem_run_start (m n : String) : Ev.startEv n ∈ evBlockRun m ↔ n = m := by
  simp [evBlockRun]

theorem mem_run_finish (m n : String) : Ev.finishEv n ∈ evBlockRun m ↔ n = m := by
  simp [evBlockRun]

theorem mem_run_exit (m n : String) : Ev.exitEv n ∈ evBlockRun m ↔ n = m := by
  simp [evBlockRun]

theorem mem_skip_enter (m n : String) : Ev.enterEv n ∈ evBlockSkip m ↔ n = m := by
  simp [evBlockSkip]

theorem mem_skip_check (m n : String) : Ev.checkEv n ∈ evBlockSkip m ↔ n = m := by
  simp [evBlockSkip]

theorem mem_skip_exit (m n : String) : Ev.exitEv n ∈ evBlockSkip m ↔ n = m := by
  simp [evBlockSkip]

/-- The canonical run trace is a valid complete interleaving in which the
derived context is marked done only after every task finished. -/
theorem runTrace_valid {α : Type} {g : Graph α} (hwf : WellFormed g)
    {order sched : List String} (hnd : order.Nodup) (hT : OrderTopo g order)
    (hss : ∀ x, x ∈ sched ↔ x ∈ order) :
    ValidTrace g sched (runTrace order) ∧
      CtxInternalDone sched (runTrace order) := by
  have hdecomp : ∀ n, n ∈ order → ∃ pre post, order = pre ++ n :: post ∧
      n ∉ pre := by
    intro n hn
    obtain ⟨pre, post, hdec⟩ := List.append_of_mem hn
    refine ⟨pre, post, hdec, ?_⟩
    have hnd' := hnd
    rw [hdec] at hnd'
    intro hc
    exact (List.nodup_append.mp hnd').2.2 hc (List.mem_cons_self _ _)
  have hlen : ∀ {pre post : List String} {n : String},
      order = pre ++ n :: post → pre.length + 1 ≤ order.length := by
    intro pre post n hdec
    have := congrArg List.length hdec
    simp only [List.length_append, List.length_cons] at this
    omega
  have hstart_mem : ∀ n, Ev.startEv n ∈ runTrace order → n ∈ order := by
    intro n hn
    have hcnt : (runTrace order).count (Ev.startEv n) =
        if n ∈ order then 1 else 0 := by
      have := count_flatMap_run_single hnd Ev.startEv n
        (fun m => run_count_start m n)
      simp [runTrace, List.count_cons, List.count_append, this]
    have := List.count_pos_iff.mpr hn
    by_cases h : n ∈ order
    · exact h
    · rw [hcnt, if_neg h] at this
      omega
  constructor
  · refine ⟨?_, ?_, ?_, ?_, ?_, ?_, ?_, ?_, ?_, ?_, ?_, ?_, ?_, ?_, ?_, ?_, ?_⟩
    · intro n
      have := count_flatMap_run_single hnd Ev.enterEv n
        (fun m => run_count_enter m n)
      simp [runTrace, List.count_cons, List.count_append, this, hss n]
    · intro n
      have := count_flatMap_run_single hnd Ev.checkEv n
        (fun m => run_count_check m n)
      simp [runTrace, List.count_cons, List.count_append, this, hss n]
    · intro n
      have := count_flatMap_run_single hnd Ev.exitEv n
        (fun m => run_count_exit m n)
      simp [runTrace, List.count_cons, List.count_append, this, hss n]
    · intro n
      have := count_flatMap_run_single hnd Ev.startEv n
        (fun m => run_count_start m n)
      simp only [runTrace, List.count_cons, List.count_append, this]
      split <;> simp
    · intro n
      have h1 := count_flatMap_run_single hnd Ev.startEv n
        (fun m => run_count_start m n)
      have h2 := count_flatMap_run_single hnd Ev.finishEv n
        (fun m => run_count_finish m n)
      simp [runTrace, List.count_cons, List.count_append, h1, h2]
    · intro n hn
      exact (hss n).mpr (hstart_mem n hn)
    · simp [runTrace, List.count_cons, List.count_append,
        count_flatMap_zero evBlockRun run_count_ret]
    · simp [runTrace, List.count_cons, List.count_append,
        count_flatMap_zero evBlockRun run_count_done]
    · intro n hn
      obtain ⟨pre, post, hdec, hnpre⟩ := hdecomp n ((hss n).mp hn)
      rw [runTrace_idx_block hdec hnpre (fun m => mem_run_enter m n) (by simp),
        runTrace_idx_block hdec hnpre (fun m => mem_run_check m n) (by simp),
        run_idx_enter, run_idx_check]
      omega
    · intro n hn
      obtain ⟨pre, post, hdec, hnpre⟩ := hdecomp n ((hss n).mp hn)
      rw [runTrace_idx_ret,
        runTrace_idx_block hdec hnpre (fun m => mem_run_check m n) (by simp),
        run_idx_check]
      omega
    · intro n hn
      obtain ⟨pre, post, hdec, hnpre⟩ := hdecomp n ((hss n).mp hn)
      rw [runTrace_idx_block hdec hnpre (fun m => mem_run_check m n) (by simp),
        runTrace_idx_block hdec hnpre (fun m => mem_run_exit m n) (by simp),
        run_idx_check, run_idx_exit]
      omega
    · intro n hn
      obtain ⟨pre, post, hdec, hnpre⟩ := hdecomp n (hstart_mem n hn)
      rw [runTrace_idx_block hdec hnpre (fun m => mem_run_check m n) (by simp),
        runTrace_idx_done, run_idx_check]
      have := hlen hdec
      omega
    · intro n hn
      obtain ⟨pre, post, hdec, hnpre⟩ := hdecomp n (hstart_mem n hn)
      rw [runTrace_idx_block hdec hnpre (fun m => mem_run_check m n) (by simp),
        runTrace_idx_block hdec hnpre (fun m => mem_run_start m n) (by simp),
        run_idx_check, run_idx_start]
      omega
    · intro n hn
      obtain ⟨pre, post, hdec, hnpre⟩ := hdecomp n (hstart_mem n hn)
      rw [runTrace_idx_block hdec hnpre (fun m => mem_run_start m n) (by simp),
        runTrace_idx_block hdec hnpre (fun m => mem_run_finish m n) (by simp),
        run_idx_start, run_idx_finish]
      omega
    · intro n hn
      obtain ⟨pre, post, hdec, hnpre⟩ := hdecomp n (hstart_mem n hn)
      rw [runTrace_idx_block hdec hnpre (fun m => mem_run_finish m n) (by simp),
        runTrace_idx_block hdec hnpre (fun m => mem_run_exit m n) (by simp),
        run_idx_finish, run_idx_exit]
      omega
    · intro n hn
      obtain ⟨pre, post, hdec, hnpre⟩ := hdecomp n (hstart_mem n hn)
      have hstartidx : evIdx (runTrace order) (Ev.startEv n) =
          1 + 5 * pre.length + 2 := by
        rw [runTrace_idx_block hdec hnpre (fun m => mem_run_start m n) (by simp),
          run_idx_start]
      have hql : ∀ q ∈ g.treeOrder.get n,
          q ∈ sched ∧ (n ∈ g.graphOrder.get q ∧
            evIdx (runTrace order) (Ev.exitEv q) <
              evIdx (runTrace order) (Ev.startEv n)) := by
        intro q hq
        have hqpre : q ∈ pre := hT pre n post hdec q hq
        have hqord : q ∈ order := by
          rw [hdec]
          exact List.mem_append.mpr (Or.inl hqpre)
        obtain ⟨pre1, post1, hdec1⟩ := List.append_of_mem hqpre
        have hdec' : order = pre1 ++ q :: (post1 ++ n :: post) := by
          rw [hdec, hdec1]
          simp
        have hqnpre1 : q ∉ pre1 := by
          have hnd' := hnd
          rw [hdec'] at hnd'
          intro hc
          exact (List.nodup_append.mp hnd').2.2 hc (List.mem_cons_self _ _)
        have hpre1len : pre1.length + 1 ≤ pre.length := by
          have := congrArg List.length hdec1
          simp only [List.length_append, List.length_cons] at this
          omega
        refine ⟨(hss q).mpr hqord, (hwf.transpose q n).mp hq, ?_⟩
        rw [hstartidx,
          runTrace_idx_block hdec' hqnpre1 (fun m => mem_run_exit m q) (by simp),
          run_idx_exit]
        omega
      have hsubT : (g.treeOrder.get n).toFinset ⊆
          (sched.filter (fun q => decide (n ∈ g.graphOrder.get q ∧
            evIdx (runTrace order) (Ev.exitEv q) <
              evIdx (runTrace order) (Ev.startEv n)))).toFinset := by
        intro q hq
        rw [List.mem_toFinset] at hq ⊢
        rw [List.mem_filter]
        obtain ⟨h1, h2⟩ := hql q hq
        exact ⟨h1, decide_eq_true h2⟩
      have h1 := Finset.card_le_card hsubT
      have h2 := List.toFinset_card_le
        (l := sched.filter (fun q => decide (n ∈ g.graphOrder.get q ∧
          evIdx (runTrace order) (Ev.exitEv q) <
            evIdx (runTrace order) (Ev.startEv n))))
      rw [List.toFinset_card_of_nodup (hwf.get_tree_nodup n)] at h1
      omega
    · intro n hn hns
      exfalso
      apply hns
      have hcnt : (runTrace order).count (Ev.startEv n) = 1 := by
        have := count_flatMap_run_single hnd Ev.startEv n
          (fun m => run_count_start m n)
        simp [runTrace, List.count_cons, List.count_append, this, (hss n).mp hn]
      exact List.count_pos_iff.mp (by omega)
  · intro n hn
    obtain ⟨pre, post, hdec, hnpre⟩ := hdecomp n ((hss n).mp hn)
    rw [runTrace_idx_block hdec hnpre (fun m => mem_run_exit m n) (by simp),
      runTrace_idx_done, run_idx_exit]
    have := hlen hdec
    omega

/-- The canonical skip trace is a valid complete interleaving in which the
derived context is done before `Resolve` returns and no action starts. -/
theorem skipTrace_valid {α : Type} (g : Graph α) {sched : List String}
    (hnd : sched.Nodup) :
    ValidTrace g sched (skipTrace sched) ∧ CtxPreDone (skipTrace sched) := by
  have hnostart : ∀ n, Ev.startEv n ∉ skipTrace sched := by
    intro n hn
    have hcnt : (skipTrace sched).count (Ev.startEv n) = 0 := by
      simp [skipTrace, List.count_cons,
        count_flatMap_zero evBlockSkip (fun m => skip_count_start m n)]
    have := List.count_pos_iff.mpr hn
    omega
  have hdecomp : ∀ n, n ∈ sched → ∃ pre post, sched = pre ++ n :: post ∧
      n ∉ pre := by
    intro n hn
    obtain ⟨pre, post, hdec⟩ := List.append_of_mem hn
    refine ⟨pre, post, hdec, ?_⟩
    have hnd' := hnd
    rw [hdec] at hnd'
    intro hc
    exact (List.nodup_append.mp hnd').2.2 hc (List.mem_cons_self _ _)
  constructor
  · refine ⟨?_, ?_, ?_, ?_, ?_, ?_, ?_, ?_, ?_, ?_, ?_, ?_, ?_, ?_, ?_, ?_, ?_⟩
    · intro n
      have := count_flatMap_skip_single hnd Ev.enterEv n
        (fun m => skip_count_enter m n)
      simp [skipTrace, List.count_cons, this]
    · intro n
      have := count_flatMap_skip_single hnd Ev.checkEv n
        (fun m => skip_count_check m n)
      simp [skipTrace, List.count_cons, this]
    · intro n
      have := count_flatMap_skip_single hnd Ev.exitEv n
        (fun m => skip_count_exit m n)
      simp [skipTrace, List.count_cons, this]
    · intro n
      simp [skipTrace, List.count_cons,
        count_flatMap_zero evBlockSkip (fun m => skip_count_start m n)]
    · intro n
      simp [skipTrace, List.count_cons,
        count_flatMap_zero evBlockSkip (fun m => skip_count_start m n),
        count_flatMap_zero evBlockSkip (fun m => skip_count_finish m n)]
    · intro n hn
      exact absurd hn (hnostart n)
    · simp [skipTrace, List.count_cons,
        count_flatMap_zero evBlockSkip skip_count_ret]
    · simp [skipTrace, List.count_cons,
        count_flatMap_zero evBlockSkip skip_count_done]
    · intro n hn
      obtain ⟨pre, post, hdec, hnpre⟩ := hdecomp n hn
      rw [skipTrace_idx_block hdec hnpre (fun m => mem_skip_enter m n)
          (by simp) (by simp),
        skipTrace_idx_block hdec hnpre (fun m => mem_skip_check m n)
          (by simp) (by simp),
        skip_idx_enter, skip_idx_check]
      omega
    · intro n hn
      obtain ⟨pre, post, hdec, hnpre⟩ := hdecomp n hn
      rw [skipTrace_idx_ret,
        skipTrace_idx_block hdec hnpre (fun m => mem_skip_check m n)
          (by simp) (by simp),
        skip_idx_check]
      omega
    · intro n hn
      obtain ⟨pre, post, hdec, hnpre⟩ := hdecomp n hn
      rw [skipTrace_idx_block hdec hnpre (fun m => mem_skip_check m n)
          (by simp) (by simp),
        skipTrace_idx_block hdec hnpre (fun m => mem_skip_exit m n)
          (by simp) (by simp),
        skip_idx_check, skip_idx_exit]
      omega
    · intro n hn
      exact absurd hn (hnostart n)
    · intro n hn
      exact absurd hn (hnostart n)
    · intro n hn
      exact absurd hn (hnostart n)
    · intro n hn
      exact absurd hn (hnostart n)
    · intro n hn
      exact absurd hn (hnostart n)
    · intro n hn _
      obtain ⟨pre, post, hdec, hnpre⟩ := hdecomp n hn
      rw [skipTrace_idx_done,
        skipTrace_idx_block hdec hnpre (fun m => mem_skip_exit m n)
          (by simp) (by simp),
        skip_idx_exit]
      omega
  · unfold CtxPreDone
    rw [skipTrace_idx_done, skipTrace_idx_ret]
    omega

/-! ## Statistics (stats.go)

`Statistics` keeps four timestamp maps, one per recorder hook; the
recorder writes `time.Now()` under the hook's name.  Timestamps are
embedded as integers. -/

/-- Lookup in a timestamp map (`m[name]` with presence flag). -/
def tmGet? : List (String × Int) → String → Option Int
  | [], _ => none
  | (k, v) :: rest, name => if k = name then some v else tmGet? rest name

/-- Go `Statistics`: the four hook-timestamp maps. -/
structure Statistics where
  enter : List (String × Int)
  start : List (String × Int)
  finish : List (String × Int)
  exit : List (String × Int)
deriving DecidableEq, Repr

/-- Go `NewStatistics`: all maps start empty. -/
def NewStatistics : Statistics := ⟨[], [], [], []⟩

/-- Go `Statistics.duration`: `to[name] - from[name]` when both are
present (the `to` map is consulted first), and 0 otherwise. -/
def Statistics.duration (fromM toM : List (String × Int)) (name : String) : Int :=
  match tmGet? toM name with
  | none => 0
  | some b =>
    match tmGet? fromM name with
    | none => 0
    | some a => b - a

/-- Go `Statistics.Action`: duration from `Start` to `Finish`. -/
def Statistics.Action (s : Statistics) (name : String) : Int :=
  Statistics.duration s.start s.finish name

/-- Go `Statistics.Wait`: duration from `Enter` to `Start`. -/
def Statistics.Wait (s : Statistics) (name : String) : Int :=
  Statistics.duration s.enter s.start name

/-- Go `Statistics.Total`: duration from `Enter` to `Exit`. -/
def Statistics.Total (s : Statistics) (name : String) : Int :=
  Statistics.duration s.enter s.exit name

/-! ## Remaining facts about `Resolve` outputs -/

/-- The task list of any `Resolve` is duplicate-free: one goroutine per
node. -/
theorem Graph.Resolve_sched_nodup {α : Type} {g : Graph α} (hwf : WellFormed g)
    (b : Bool) : (g.Resolve b).finalSt.sched.Nodup := by
  unfold Graph.Resolve
  split
  · simp
  case _ hrne =>
    cases b
    · rcases hloop : g.resolveLoop false g.collectRoots ⟨[], [], [], []⟩
        with ⟨e, serr⟩ | s'
      · obtain ⟨-, G, -, -⟩ :=
          g.resolveLoop_error_facts hwf _ _ _ _ (g.LoopInv_start hwf) hloop
        simpa using G.2.1
      · obtain ⟨G, -, -, -, -, -⟩ :=
          g.resolveLoop_ok_facts hwf _ _ _ (g.LoopInv_start hwf) hloop
        simpa using G.2.1
    · obtain ⟨s', hloop, -, hsched, -, -⟩ :=
        g.resolveLoop_true_facts hwf g.collectRoots ⟨[], [], [], []⟩
          (fun r hr => ((g.mem_collectRoots_iff r).mp hr).2) rfl
      rw [hloop]
      show s'.sched.Nodup
      rw [hsched]
      simpa using g.collectRoots_nodup hwf

/-- Every error path of `Resolve` calls `done()` before returning. -/
theorem Graph.Resolve_cancelled_of_err {α : Type} (g : Graph α) (b : Bool)
    (h : (g.Resolve b).err ≠ none) :
    (g.Resolve b).cancelledAtReturn = true := by
  by_cases hre : g.collectRoots.isEmpty
  · unfold Graph.Resolve
    rw [if_pos hre]
  · unfold Graph.Resolve at h ⊢
    rw [if_neg hre] at h ⊢
    rcases hloop : g.resolveLoop b g.collectRoots ⟨[], [], [], []⟩ with ⟨e, s⟩ | s
    · rfl
    · rw [hloop] at h
      simp at h

/-! ## Concrete graphs for the examples -/

/-- Build a graph by applying construction steps in order, keeping the
previous graph when a step fails. -/
def buildGraph (steps : List (Graph Nat → Except String (Graph Nat))) : Graph Nat :=
  steps.foldl (fun g f => match f g with | .ok g' => g' | .error _ => g) NewGraph

/-- The tree of spec §8 and `TestGraph_collectRoots`: edge X→Y means Y
depends on X. -/
def definedG : Graph Nat := buildGraph
  [fun g => g.AddAction "a" 0, fun g => g.AddAction "b" 0,
   fun g => g.AddAction "c" 0, fun g => g.AddAction "d" 0,
   fun g => g.AddAction "e" 0, fun g => g.AddAction "f" 0,
   fun g => g.AddAction "g" 0, fun g => g.AddAction "h" 0,
   fun g => g.AddAction "i" 0, fun g => g.AddAction "j" 0,
   fun g => g.AddAction "k" 0,
   fun g => g.LinkDependency "a" "b", fun g => g.LinkDependency "b" "e",
   fun g => g.LinkDependency "e" "f", fun g => g.LinkDependency "a" "c",
   fun g => g.LinkDependency "c" "g", fun g => g.LinkDependency "a" "d",
   fun g => g.LinkDependency "a" "h", fun g => g.LinkDependency "h" "i",
   fun g => g.LinkDependency "i" "j", fun g => g.LinkDependency "i" "k"]

/-- Two actions, one dependency: `b` depends on `a` (`TestGraph_Resolve`). -/
def chainG : Graph Nat := buildGraph
  [fun g => g.AddAction "a" 0, fun g => g.AddAction "b" 0,
   fun g => g.LinkDependency "a" "b"]

/-- A diamond: `d` depends on `b` and `c`, each depending on `a`. -/
def diamondG : Graph Nat := buildGraph
  [fun g => g.AddAction "a" 0, fun g => g.AddAction "b" 0,
   fun g => g.AddAction "c" 0, fun g => g.AddAction "d" 0,
   fun g => g.LinkDependency "a" "b", fun g => g.LinkDependency "a" "c",
   fun g => g.LinkDependency "b" "d", fun g => g.LinkDependency "c" "d"]

/-- A root `a` whose prerequisite `b` lies on the cycle `b ↔ c`. -/
def cycleG : Graph Nat := buildGraph
  [fun g => g.AddAction "a" 0, fun g => g.AddAction "b" 0,
   fun g => g.AddAction "c" 0,
   fun g => g.LinkDependency "b" "a", fun g => g.LinkDependency "c" "b",
   fun g => g.LinkDependency "b" "c"]

/-- Two mutually dependent actions (`TestGraph_Resolve_noRoots`). -/
def noRootsG : Graph Nat := buildGraph
  [fun g => g.AddAction "a" 0, fun g => g.AddAction "b" 0,
   fun g => g.LinkDependency "a" "b", fun g => g.LinkDependency "b" "a"]

/-- Two registered actions and no edges yet. -/
def preG : Graph Nat := buildGraph
  [fun g => g.AddAction "a" 0, fun g => g.AddAction "b" 0]

/-- Hook timestamps of a session where the action of `a` ran
(Enter 0, Start 1, Finish 2, Exit 3) and the action of `b` was skipped by
cancellation (Enter 10, Exit 15, no Start/Finish). -/
def statsSample : Statistics :=
  ⟨[("a", 0), ("b", 10)], [("a", 1)], [("a", 2)], [("a", 3), ("b", 15)]⟩

/-! ## The claims -/

/-- C1 (counterexample): the claim quantifies over *every* graph whose
registered actions have non-empty names and whose prerequisite edges form
no cycle, and asserts `Resolve` returns no error.  The empty graph
satisfies all those hypotheses, yet `Resolve` fails with `noRoots` —
exactly as spec §7 itself describes ("empty-but-present graph"). -/
theorem C1_empty_graph_counterexample :
    WellFormed (NewGraph : Graph Nat) ∧
    (∀ n ∈ (NewGraph : Graph Nat).keys, n ≠ "") ∧
    (NewGraph : Graph Nat).Acyclic ∧
    ((NewGraph : Graph Nat).Resolve false).err ≠ none := by
  refine ⟨by decide, by decide, ?_, by decide⟩
  exact Graph.acyclic_of_rank _ (fun _ => 0)
    (fun e he => absurd he (List.not_mem_nil _))

/-- C1 (amended: the graph must have at least one registered action): on a
well-formed acyclic graph with non-empty names and at least one action,
`Resolve` returns no error, and in every complete interleaving of the
spawned tasks in which the derived context is only completed internally
(no external cancellation), every registered action starts and finishes
exactly once, before the returned resolution signal completes; such a
complete interleaving exists. -/
theorem C1_acyclic_runs_all_amended {α : Type} (g : Graph α)
    (hwf : WellFormed g) (_hnames : ∀ n ∈ g.keys, n ≠ "") (hac : g.Acyclic)
    (hne : g.actions ≠ []) :
    (g.Resolve false).err = none ∧
    (∀ tr, ValidTrace g (g.Resolve false).finalSt.sched tr →
      CtxInternalDone (g.Resolve false).finalSt.sched tr →
      ∀ n ∈ g.keys, tr.count (Ev.startEv n) = 1 ∧
        tr.count (Ev.finishEv n) = 1 ∧
        evIdx tr (Ev.finishEv n) < evIdx tr Ev.ctxDoneEv) ∧
    (∃ tr, ValidTrace g (g.Resolve false).finalSt.sched tr ∧
      CtxInternalDone (g.Resolve false).finalSt.sched tr) := by
  obtain ⟨herr, hcanc, hsnd, hond, hT, hsched, hord⟩ :=
    Graph.Resolve_acyclic_facts hwf hac hne
  refine ⟨herr, ?_, ?_⟩
  · intro tr hv hint n hn
    exact hv.runs_all_of_internal hint n ((hsched n).mpr hn)
  · obtain ⟨hv, hint⟩ := runTrace_valid hwf hond hT
      (fun x => (hsched x).trans (hord x).symm)
    exact ⟨runTrace (g.Resolve false).finalSt.order, hv, hint⟩

theorem C1_acyclic_runs_all_witness :
    (chainG.Resolve false).err = none ∧
    (∃ tr, ValidTrace chainG (chainG.Resolve false).finalSt.sched tr ∧
      CtxInternalDone (chainG.Resolve false).finalSt.sched tr) := by
  obtain ⟨h1, -, h3⟩ := C1_acyclic_runs_all_amended chainG (by decide) (by decide)
    (chainG.acyclic_of_rank (fun n => if n = "a" then 0 else 1) (by decide))
    (by decide)
  exact ⟨h1, h3⟩

/-- C2: for a pair (prerequisite `p`, dependent `d`) whose edge was
recorded by a successful `LinkDependency` (so `p ∈ g.treeOrder[d]`, see
C9), in every complete interleaving of any resolution in which both
actions ran, the dependent's action started strictly after the
prerequisite's action returned: `d`'s countdown latch reaches zero only
after each prerequisite's task, `p`'s included, has completed, and the
completion step follows the action's return. -/
theorem C2_dependent_after_prerequisite {α : Type} {g : Graph α}
    (hwf : WellFormed g) {p d : String} (hedge : p ∈ g.treeOrder.get d)
    (b : Bool) (tr : List Ev)
    (hv : ValidTrace g (g.Resolve b).finalSt.sched tr)
    (hp : Ev.startEv p ∈ tr) (hd : Ev.startEv d ∈ tr) :
    evIdx tr (Ev.finishEv p) < evIdx tr (Ev.startEv d) :=
  hv.prereq_finish_before_start hwf (Graph.Resolve_sched_nodup hwf b) hedge hp hd

theorem C2_dependent_after_prerequisite_witness :
    evIdx (runTrace ((chainG.Resolve false).finalSt.order)) (Ev.finishEv "a") <
      evIdx (runTrace ((chainG.Resolve false).finalSt.order)) (Ev.startEv "b") := by
  have hwf : WellFormed chainG := by decide
  obtain ⟨-, -, -, hond, hT, hsched, hord⟩ :=
    Graph.Resolve_acyclic_facts hwf
      (chainG.acyclic_of_rank (fun n => if n = "a" then 0 else 1) (by decide))
      (by decide)
  obtain ⟨hv, -⟩ := runTrace_valid hwf hond hT
    (fun x => (hsched x).trans (hord x).symm)
  exact C2_dependent_after_prerequisite hwf (by decide) false _ hv
    (by decide) (by decide)

/-- C3: on a well-formed graph, `Resolve` reports `cycleDetected` exactly
when some node reachable from a root is reachable from itself along
prerequisite edges; in particular a non-cyclic diamond is never reported
as a cycle, and the task list is duplicate-free — a node reachable along
several paths is scheduled only on its first discovery. -/
theorem C3_cycle_detection_exact {α : Type} (g : Graph α)
    (hwf : WellFormed g) :
    ((g.Resolve false).err = some ResolveError.cycleDetected ↔
      g.HasReachableCycle) ∧
    (g.Resolve false).finalSt.sched.Nodup :=
  ⟨Graph.Resolve_cycle_iff hwf, Graph.Resolve_sched_nodup hwf false⟩

theorem C3_cycle_detection_exact_witness :
    ((diamondG.Resolve false).err = some ResolveError.cycleDetected ↔
      diamondG.HasReachableCycle) ∧
    (diamondG.Resolve false).finalSt.sched.Nodup :=
  C3_cycle_detection_exact diamondG (by decide)

/-- C4: when a reachable prerequisite cycle exists, `Resolve` fails with
`cycleDetected` and calls `done()` before returning; in every complete
interleaving where the derived context is done before `Resolve` returns,
every spawned task observes the done context at its first check (after
the construction barrier) and skips its action — no action anywhere in
the graph runs.  Such a complete interleaving exists. -/
theorem C4_cycle_cancels_all {α : Type} (g : Graph α) (hwf : WellFormed g)
    (hcyc : g.HasReachableCycle) :
    (g.Resolve false).err = some ResolveError.cycleDetected ∧
    (g.Resolve false).cancelledAtReturn = true ∧
    (∀ tr, ValidTrace g (g.Resolve false).finalSt.sched tr → CtxPreDone tr →
      ∀ n, Ev.startEv n ∉ tr) ∧
    (∃ tr, ValidTrace g (g.Resolve false).finalSt.sched tr ∧ CtxPreDone tr) := by
  have herr := (Graph.Resolve_cycle_iff hwf).mpr hcyc
  refine ⟨herr, Graph.Resolve_cancelled_of_err g false (by rw [herr]; simp),
    ?_, ?_⟩
  · intro tr hv hpre n
    exact hv.no_start_of_preDone hpre n
  · obtain ⟨hv, hpre⟩ := skipTrace_valid g (Graph.Resolve_sched_nodup hwf false)
    exact ⟨skipTrace (g.Resolve false).finalSt.sched, hv, hpre⟩

theorem C4_cycle_cancels_all_witness :
    (cycleG.Resolve false).err = some ResolveError.cycleDetected ∧
    (cycleG.Resolve false).cancelledAtReturn = true := by
  have h := C4_cycle_cancels_all cycleG (by decide)
    ⟨"a", by decide, "b",
      Relation.ReflTransGen.single (show cycleG.step "a" "b" by decide),
      Relation.TransGen.tail
        (Relation.TransGen.single (show cycleG.step "b" "c" by decide))
        (show cycleG.step "c" "b" by decide)⟩
  exact ⟨h.1, h.2.1⟩

/-- C5: a non-empty graph in which every registered node has a dependent
has no roots; `Resolve` fails with `noRoots`, spawns no task, the derived
context is cancelled at return, and in every complete interleaving (the
task set being empty) no task event occurs at all — in particular no
action runs.  A complete interleaving exists. -/
theorem C5_no_roots_fails_fast {α : Type} (g : Graph α) (b : Bool)
    (_hne : g.actions ≠ [])
    (hdep : ∀ n ∈ g.keys, g.graphOrder.get n ≠ []) :
    (g.Resolve b).err = some ResolveError.noRoots ∧
    (g.Resolve b).finalSt.sched = [] ∧
    (g.Resolve b).cancelledAtReturn = true ∧
    (∀ tr, ValidTrace g (g.Resolve b).finalSt.sched tr →
      ∀ n, Ev.startEv n ∉ tr ∧ Ev.enterEv n ∉ tr) ∧
    (∃ tr, ValidTrace g (g.Resolve b).finalSt.sched tr ∧ CtxPreDone tr) := by
  have hroots : g.collectRoots = [] := by
    unfold Graph.collectRoots
    rw [List.filter_eq_nil_iff]
    intro n hn
    simpa using hdep n hn
  have hout := g.Resolve_noRoots_out b hroots
  rw [hout]
  refine ⟨rfl, rfl, rfl, ?_, ?_⟩
  · intro tr hv n
    constructor
    · intro hc
      exact absurd (hv.start_sched n hc) (List.not_mem_nil _)
    · intro hc
      have := List.count_pos_iff.mpr hc
      have h2 := hv.count_enter n
      rw [if_neg (List.not_mem_nil _)] at h2
      omega
  · obtain ⟨hv, hpre⟩ := skipTrace_valid g (List.nodup_nil)
    exact ⟨skipTrace [], hv, hpre⟩

theorem C5_no_roots_fails_fast_witness :
    (noRootsG.Resolve false).err = some ResolveError.noRoots ∧
    (noRootsG.Resolve false).finalSt.sched = [] ∧
    (noRootsG.Resolve false).cancelledAtReturn = true := by
  have h := C5_no_roots_fails_fast noRootsG false (by decide) (by decide)
  exact ⟨h.1, h.2.1, h.2.2.1⟩

/-- C6: when the caller's context is already done before `Resolve` is
called, on a well-formed graph that has roots, `Resolve` returns no
error; the traversal spawns tasks only for the roots, and in every
complete interleaving (the derived context being done before `Resolve`
returns) no action starts, so the returned signal completes with zero
actions executed.  A complete interleaving exists. -/
theorem C6_pre_cancelled_runs_nothing {α : Type} (g : Graph α)
    (hwf : WellFormed g) (hroots : g.collectRoots ≠ []) :
    (g.Resolve true).err = none ∧
    (g.Resolve true).cancelledAtReturn = true ∧
    (∀ tr, ValidTrace g (g.Resolve true).finalSt.sched tr → CtxPreDone tr →
      ∀ n, Ev.startEv n ∉ tr) ∧
    (∃ tr, ValidTrace g (g.Resolve true).finalSt.sched tr ∧ CtxPreDone tr) := by
  obtain ⟨herr, hcanc, hsched⟩ := Graph.Resolve_preDone_facts hwf hroots
  refine ⟨herr, hcanc, ?_, ?_⟩
  · intro tr hv hpre n
    exact hv.no_start_of_preDone hpre n
  · obtain ⟨hv, hpre⟩ := skipTrace_valid g (Graph.Resolve_sched_nodup hwf true)
    exact ⟨skipTrace (g.Resolve true).finalSt.sched, hv, hpre⟩

theorem C6_pre_cancelled_runs_nothing_witness :
    (chainG.Resolve true).err = none ∧
    (chainG.Resolve true).cancelledAtReturn = true := by
  have h := C6_pre_cancelled_runs_nothing chainG (by decide) (by decide)
  exact ⟨h.1, h.2.1⟩

/-- C7: the root finder returns exactly the registered names whose
dependent set is empty — a membership characterization independent of any
enumeration order — and on the spec §8 tree (edge X→Y meaning Y depends
on X) the computed root set is exactly the set of the five leaves f, g,
d, j, k. -/
theorem C7_root_set_characterization :
    (∀ {α : Type} (g : Graph α) (n : String),
      n ∈ g.collectRoots ↔ n ∈ g.keys ∧ g.graphOrder.get n = []) ∧
    definedG.collectRoots.toFinset = {"f", "g", "d", "j", "k"} := by
  refine ⟨?_, by decide⟩
  intro α g n
  exact g.mem_collectRoots_iff n

/-- C8 (counterexample): the spec's identity
`wait(name) + action(name) == total(name)` fails on the code: `Wait +
Action` telescopes to the Finish−Enter duration, while `Total` measures
Enter→Exit and `Exit` is recorded strictly after `Finish`; moreover a
node skipped by cancellation has `Wait = Action = 0` but a non-zero
`Total`, since its `Enter` and `Exit` hooks both fired. -/
theorem C8_stats_identity_counterexample :
    statsSample.Wait "a" + statsSample.Action "a" ≠ statsSample.Total "a" ∧
    statsSample.Wait "b" = 0 ∧ statsSample.Action "b" = 0 ∧
    statsSample.Total "b" ≠ 0 := by
  decide

/-- C8 (amended): with all four hook timestamps present and in hook order,
`Wait + Action` equals the Finish−Enter duration, hence is at most
`Total`, with equality exactly when the Exit and Finish timestamps
coincide; and for a node whose action never started (no `Start`
timestamp), `Wait` and `Action` are both zero (`Total` is Exit−Enter,
not necessarily zero). -/
theorem C8_stats_identity_amended (s : Statistics) (name : String) :
    (∀ e st f x : Int, tmGet? s.enter name = some e →
      tmGet? s.start name = some st → tmGet? s.finish name = some f →
      tmGet? s.exit name = some x → e ≤ st → st ≤ f → f ≤ x →
      s.Wait name + s.Action name = f - e ∧
      s.Wait name + s.Action name ≤ s.Total name ∧
      (s.Wait name + s.Action name = s.Total name ↔ f = x)) ∧
    (tmGet? s.start name = none → s.Wait name = 0 ∧ s.Action name = 0) := by
  constructor
  · intro e st f x he hst hf hx h1 h2 h3
    have hw : s.Wait name = st - e := by
      unfold Statistics.Wait Statistics.duration
      rw [hst, he]
    have ha : s.Action name = f - st := by
      unfold Statistics.Action Statistics.duration
      rw [hf, hst]
    have ht : s.Total name = x - e := by
      unfold Statistics.Total Statistics.duration
      rw [hx, he]
    rw [hw, ha, ht]
    constructor
    · ring
    constructor
    · omega
    · omega
  · intro hnone
    constructor
    · unfold Statistics.Wait Statistics.duration
      rw [hnone]
    · unfold Statistics.Action Statistics.duration
      cases hf : tmGet? s.finish name
      · rfl
      · rw [hnone]

theorem C8_stats_identity_witness :
    statsSample.Wait "a" + statsSample.Action "a" = 2 - 0 ∧
    statsSample.Wait "a" + statsSample.Action "a" ≤ statsSample.Total "a" ∧
    (statsSample.Wait "a" + statsSample.Action "a" = statsSample.Total "a" ↔
      (2 : Int) = 3) := by
  exact (C8_stats_identity_amended statsSample "a").1 0 1 2 3 (by decide)
    (by decide) (by decide) (by decide) (by decide) (by decide) (by decide)

/-- C9: `LinkDependency prerequisite dependent` succeeds exactly when both
names are non-empty and registered; on success the edge is inserted into
both adjacency maps as an exact transposed pair (the membership of each
map changes by precisely this one pair), the action registry is
untouched, and well-formedness — including the transposition invariant —
is preserved.  On failure the function returns only an error, leaving the
graph unmodified. -/
theorem C9_link_inserts_transposed_pair {α : Type} (g : Graph α)
    (hwf : WellFormed g) (p d : String) :
    ((∃ g', g.LinkDependency p d = .ok g') ↔
      d ≠ "" ∧ d ∈ g.keys ∧ p ≠ "" ∧ p ∈ g.keys) ∧
    (∀ g', g.LinkDependency p d = .ok g' →
      (∀ c q, q ∈ g'.treeOrder.get c ↔
        ((c = d ∧ q = p) ∨ q ∈ g.treeOrder.get c)) ∧
      (∀ q c, c ∈ g'.graphOrder.get q ↔
        ((q = p ∧ c = d) ∨ c ∈ g.graphOrder.get q)) ∧
      g'.actions = g.actions ∧ WellFormed g') := by
  refine ⟨LinkDependency_ok_iff g p d, ?_⟩
  intro g' h
  exact ⟨fun c q => LinkDependency_get_tree h c q,
    fun q c => LinkDependency_get_graph h q c,
    (LinkDependency_ok_facts h).1, wellFormed_LinkDependency hwf h⟩

theorem C9_link_inserts_transposed_pair_witness :
    ∃ g', preG.LinkDependency "a" "b" = Except.ok g' :=
  (C9_link_inserts_transposed_pair preG (by decide) "a" "b").1.mpr
    (by decide)

/-- C10: `AddAction name action` fails exactly when `name` is empty (the
failure returns only an error, leaving the graph unmodified); on success
it stores or overwrites `action` under `name` and leaves both adjacency
maps unchanged. -/
theorem C10_add_action_spec {α : Type} (g : Graph α) (name : String) (a : α) :
    ((∃ g', g.AddAction name a = .ok g') ↔ name ≠ "") ∧
    (∀ g', g.AddAction name a = .ok g' →
      g'.treeOrder = g.treeOrder ∧ g'.graphOrder = g.graphOrder ∧
      ∀ x, actionsGet? g'.actions x =
        if x = name then some a else actionsGet? g.actions x) := by
  constructor
  · unfold Graph.AddAction
    by_cases h : name = "" <;> simp [h]
  · intro g' h
    unfold Graph.AddAction at h
    split at h
    · exact absurd h (by simp)
    · injection h with h
      subst h
      exact ⟨rfl, rfl, fun x => actionsGet?_actionsSet g.actions name x a⟩

theorem C10_add_action_spec_witness :
    ∃ g', (NewGraph : Graph Nat).AddAction "a" 1 = Except.ok g' :=
  (C10_add_action_spec (NewGraph : Graph Nat) "a" 1).1.mpr (by decide)

end Depfunc
